import Mathlib

/-!
Verification of the Figure Extraction & Reference-Matching Engine of the
`literature-agent-V2` repository.

The development shallowly embeds the Python source:

* `src/parsers/pdf_parser_improved.py` — the bounding-box merge
  (`_merge_nearby_bboxes`, `_is_nearby`) and the extraction pipeline
  (`_extract_by_region_crop`, `_extract_by_merging`, `parse`);
* `src/parsers/figure_parser.py` — the citation extractor
  (`FigureReferenceExtractor.PATTERNS`, `extract_references`);
* `src/agents/smart_agent.py` — the reference matcher
  (`_match_figures_intelligently`), image enumeration in `load_pdf`, and the
  `split_attempted` life cycle in `query` / `auto_split_all_figures`.

Page coordinates are embedded as rationals (Python uses floats; all
constants involved are small decimals, and every claim is about order
comparisons, which ℚ models exactly).  Byte sizes are naturals.  External
collaborators (PyMuPDF rasterization, the subfigure splitter) enter as
explicit oracle parameters.
-/

set_option linter.unusedVariables false

namespace LitAgent

/-- Placement rectangle `(x0, y0, x1, y1)` in page coordinates, the shape of
a `fitz.Rect` as used by `pdf_parser_improved.py`. -/
structure Rect where
  x0 : ℚ
  y0 : ℚ
  x1 : ℚ
  y1 : ℚ
deriving DecidableEq, Repr

/-- Embedding of `ImprovedPDFParser._is_nearby`: the two rectangles overlap
or are within `t` of each other on both axes. -/
def isNearby (b1 b2 : Rect) (t : ℚ) : Bool :=
  let xOverlap := !(decide (b1.x1 + t < b2.x0) || decide (b2.x1 + t < b1.x0))
  let yOverlap := !(decide (b1.y1 + t < b2.y0) || decide (b2.y1 + t < b1.y0))
  xOverlap && yOverlap

/-- The rectangle union `fitz.Rect(min x0, min y0, max x1, max y1)` formed at
the merge site in `_merge_nearby_bboxes`. -/
def rUnion (a b : Rect) : Rect :=
  ⟨min a.x0 b.x0, min a.y0 b.y0, max a.x1 b.x1, max a.y1 b.y1⟩

/-- Rectangle containment: `a` lies inside `b`. -/
def Rect.inside (a b : Rect) : Prop :=
  b.x0 ≤ a.x0 ∧ b.y0 ≤ a.y0 ∧ a.x1 ≤ b.x1 ∧ a.y1 ≤ b.y1

instance (a b : Rect) : Decidable (a.inside b) := by
  unfold Rect.inside; infer_instance

/-- Inner loop of one scan of `_merge_nearby_bboxes`: the running
`current_bbox` absorbs every later unconsumed rectangle that is nearby
(each subsequent candidate is tested against the updated union, exactly as
the Python `for j` loop does).  Returns the final union, the kept (not
absorbed) rectangles in order, and whether anything was absorbed. -/
def absorb (t : ℚ) (cur : Rect) : List Rect → Rect × List Rect × Bool
  | [] => (cur, [], false)
  | r :: rs =>
    if isNearby cur r t then
      let p := absorb t (rUnion cur r) rs
      (p.1, p.2.1, true)
    else
      let p := absorb t cur rs
      (p.1, r :: p.2.1, p.2.2)

theorem absorb_kept_length (t : ℚ) (cur : Rect) (l : List Rect) :
    (absorb t cur l).2.1.length ≤ l.length := by
  induction l generalizing cur with
  | nil => simp [absorb]
  | cons r rs ih =>
    by_cases h : isNearby cur r t
    · simp only [absorb, h, if_true]
      exact le_trans (ih (rUnion cur r)) (Nat.le_succ _)
    · simp only [absorb, h, if_false, List.length_cons]
      exact Nat.succ_le_succ (ih cur)

theorem absorb_kept_length_lt (t : ℚ) (cur : Rect) (l : List Rect)
    (h : (absorb t cur l).2.2 = true) :
    (absorb t cur l).2.1.length < l.length := by
  induction l generalizing cur with
  | nil => simp [absorb] at h
  | cons r rs ih =>
    by_cases hn : isNearby cur r t
    · simp only [absorb, hn, if_true]
      exact Nat.lt_succ_of_le (absorb_kept_length t (rUnion cur r) rs)
    · simp only [absorb, hn, if_false] at h ⊢
      simp only [List.length_cons]
      exact Nat.succ_lt_succ (ih cur h)

/-- One full scan of the `while changed` loop in `_merge_nearby_bboxes`:
each unconsumed rectangle in turn absorbs the nearby rectangles after it.
Returns the new rectangle list and the pass's `changed` flag. -/
def onePass (t : ℚ) : List Rect → List Rect × Bool
  | [] => ([], false)
  | r :: rs =>
    let a := absorb t r rs
    let p := onePass t a.2.1
    (a.1 :: p.1, a.2.2 || p.2)
termination_by l => l.length
decreasing_by
  simp only [List.length_cons]
  exact Nat.lt_succ_of_le (absorb_kept_length t r rs)

theorem onePass_length (t : ℚ) (l : List Rect) :
    (onePass t l).1.length ≤ l.length := by
  induction l using onePass.induct t with
  | case1 => simp [onePass]
  | case2 r rs a ih =>
    simp only [onePass, List.length_cons]
    exact Nat.succ_le_succ (le_trans ih (absorb_kept_length t r rs))

theorem onePass_progress (t : ℚ) (l : List Rect)
    (h : (onePass t l).2 = true) :
    (onePass t l).1.length < l.length := by
  induction l using onePass.induct t with
  | case1 => simp [onePass] at h
  | case2 r rs a ih =>
    simp only [onePass, Bool.or_eq_true] at h ⊢
    simp only [List.length_cons]
    rcases h with h | h
    · have h1 : (absorb t r rs).2.1.length < rs.length :=
        absorb_kept_length_lt t r rs h
      have h2 : (onePass t (absorb t r rs).2.1).1.length ≤
          (absorb t r rs).2.1.length := onePass_length t _
      omega
    · have h1 : (onePass t (absorb t r rs).2.1).1.length <
          (absorb t r rs).2.1.length := ih h
      have h2 : (absorb t r rs).2.1.length ≤ rs.length :=
        absorb_kept_length t r rs
      omega

/-- The `while changed` loop of `_merge_nearby_bboxes`: rescan until a pass
absorbs nothing.  Terminates because a changing pass strictly shrinks the
list. -/
def mergeLoop (t : ℚ) (l : List Rect) : List Rect :=
  let p := onePass t l
  if h : p.2 = true then mergeLoop t p.1 else p.1
termination_by l.length
decreasing_by
  exact onePass_progress t l h

/-- Embedding of `ImprovedPDFParser._merge_nearby_bboxes` (the empty-input
early return followed by the scan loop). -/
def mergeNearby (t : ℚ) (l : List Rect) : List Rect :=
  if l = [] then [] else mergeLoop t l

theorem absorb_eq_of_not_changed (t : ℚ) (cur : Rect) (l : List Rect)
    (h : (absorb t cur l).2.2 = false) :
    absorb t cur l = (cur, l, false) := by
  induction l generalizing cur with
  | nil => simp [absorb]
  | cons r rs ih =>
    by_cases hn : isNearby cur r t
    · simp [absorb, hn] at h
    · have hn2 : isNearby cur r t = false := by simpa using hn
      simp only [absorb, hn2, Bool.false_eq_true, if_false] at h ⊢
      rw [ih cur h]

theorem absorb_not_nearby (t : ℚ) (cur : Rect) (l : List Rect)
    (h : (absorb t cur l).2.2 = false) :
    ∀ r ∈ l, isNearby cur r t = false := by
  induction l generalizing cur with
  | nil => simp
  | cons r rs ih =>
    by_cases hn : isNearby cur r t
    · simp [absorb, hn] at h
    · have hn2 : isNearby cur r t = false := by simpa using hn
      simp only [absorb, hn2, Bool.false_eq_true, if_false] at h
      intro x hx
      rcases List.mem_cons.mp hx with rfl | hx
      · exact hn2
      · exact ih cur h x hx

theorem absorb_of_all_far (t : ℚ) (cur : Rect) (l : List Rect)
    (h : ∀ r ∈ l, isNearby cur r t = false) :
    absorb t cur l = (cur, l, false) := by
  induction l generalizing cur with
  | nil => simp [absorb]
  | cons r rs ih =>
    have hr : isNearby cur r t = false := h r (List.mem_cons_self r rs)
    simp only [absorb, hr, Bool.false_eq_true, if_false]
    rw [ih cur (fun x hx => h x (List.mem_cons_of_mem r hx))]

theorem onePass_eq_of_not_changed (t : ℚ) (l : List Rect)
    (h : (onePass t l).2 = false) :
    (onePass t l).1 = l := by
  induction l using onePass.induct t with
  | case1 => simp [onePass]
  | case2 r rs a ih =>
    have haEq : a = absorb t r rs := rfl
    rw [haEq] at ih
    simp only [onePass, Bool.or_eq_false_iff] at h ⊢
    obtain ⟨h1, h2⟩ := h
    have ha := absorb_eq_of_not_changed t r rs h1
    rw [ha] at h2 ⊢
    rw [ha] at ih
    simp only [List.cons.injEq, true_and]
    exact ih h2

/-- A scan that absorbs nothing witnesses that the list is pairwise not
nearby. -/
theorem onePass_pairwise_of_not_changed (t : ℚ) (l : List Rect)
    (h : (onePass t l).2 = false) :
    l.Pairwise (fun a b => isNearby a b t = false) := by
  induction l using onePass.induct t with
  | case1 => exact List.Pairwise.nil
  | case2 r rs a ih =>
    have haEq : a = absorb t r rs := rfl
    rw [haEq] at ih
    simp only [onePass, Bool.or_eq_false_iff] at h
    obtain ⟨h1, h2⟩ := h
    have ha := absorb_eq_of_not_changed t r rs h1
    rw [ha] at h2 ih
    exact List.Pairwise.cons (absorb_not_nearby t r rs h1) (ih h2)

theorem onePass_of_pairwise (t : ℚ) (l : List Rect)
    (h : l.Pairwise (fun a b => isNearby a b t = false)) :
    onePass t l = (l, false) := by
  induction l using onePass.induct t with
  | case1 => simp [onePass]
  | case2 r rs a ih =>
    have haEq : a = absorb t r rs := rfl
    rw [haEq] at ih
    rcases List.pairwise_cons.mp h with ⟨hr, hrs⟩
    have ha := absorb_of_all_far t r rs hr
    rw [ha] at ih
    simp only [onePass, ha]
    rw [ih hrs]
    simp

theorem mergeLoop_pairwise (t : ℚ) (l : List Rect) :
    (mergeLoop t l).Pairwise (fun a b => isNearby a b t = false) := by
  induction l using mergeLoop.induct t with
  | case1 l p hp ih =>
    have hpEq : p = onePass t l := rfl
    rw [hpEq] at hp ih
    rw [mergeLoop]
    simp only [hp, dif_pos]
    exact ih
  | case2 l p hp =>
    have hpEq : p = onePass t l := rfl
    rw [hpEq] at hp
    have hp2 : (onePass t l).2 = false := by simpa using hp
    rw [mergeLoop]
    simp only [hp2, Bool.false_eq_true, dite_false]
    rw [onePass_eq_of_not_changed t l hp2]
    exact onePass_pairwise_of_not_changed t l hp2

theorem mergeLoop_of_pairwise (t : ℚ) (l : List Rect)
    (h : l.Pairwise (fun a b => isNearby a b t = false)) :
    mergeLoop t l = l := by
  rw [mergeLoop, onePass_of_pairwise t l h]
  simp

theorem mergeNearby_pairwise (t : ℚ) (l : List Rect) :
    (mergeNearby t l).Pairwise (fun a b => isNearby a b t = false) := by
  unfold mergeNearby
  by_cases h : l = []
  · simp [h]
  · simp only [h, if_false]
    exact mergeLoop_pairwise t l

theorem mergeNearby_idem (t : ℚ) (l : List Rect) :
    mergeNearby t (mergeNearby t l) = mergeNearby t l := by
  unfold mergeNearby
  by_cases h : l = []
  · simp [h]
  · simp only [h, if_false]
    by_cases h2 : mergeLoop t l = []
    · simp [h2]
    · simp only [h2, if_false]
      exact mergeLoop_of_pairwise t _ (mergeLoop_pairwise t l)

/-! ### Instrumented merge

`mergeM` is `_merge_nearby_bboxes` run on clusters that additionally carry
the indexed input rectangles they were built from.  The rectangle component
evolves exactly as in `mergeNearby` (proved by the projection lemmas
below); the member component is bookkeeping used to state the
`MergedRegion` invariants of the specification. -/

/-- An input rectangle tagged with its position in the input list. -/
abbrev IRect := Nat × Rect

/-- A merge cluster: the running union rectangle (`current_bbox` in the
source) together with the input rectangles absorbed into it. -/
abbrev Cluster := Rect × List IRect

/-- Bounding box of a member list: the first member's rectangle unioned
with the rest (junk on the empty list, which never arises). -/
def bigBox : List IRect → Rect
  | [] => ⟨0, 0, 0, 0⟩
  | m :: ms => ms.foldl (fun b p => rUnion b p.2) m.2

/-- Member-tracking version of `absorb`. -/
def absorbM (t : ℚ) (cur : Cluster) : List Cluster → Cluster × List Cluster × Bool
  | [] => (cur, [], false)
  | c :: cs =>
    if isNearby cur.1 c.1 t then
      let p := absorbM t (rUnion cur.1 c.1, cur.2 ++ c.2) cs
      (p.1, p.2.1, true)
    else
      let p := absorbM t cur cs
      (p.1, c :: p.2.1, p.2.2)

theorem absorbM_kept_length (t : ℚ) (cur : Cluster) (l : List Cluster) :
    (absorbM t cur l).2.1.length ≤ l.length := by
  induction l generalizing cur with
  | nil => simp [absorbM]
  | cons c cs ih =>
    by_cases h : isNearby cur.1 c.1 t
    · simp only [absorbM, h, if_true]
      exact le_trans (ih _) (Nat.le_succ _)
    · simp only [absorbM, h, if_false, List.length_cons]
      exact Nat.succ_le_succ (ih cur)

/-- Member-tracking version of `onePass`. -/
def onePassM (t : ℚ) : List Cluster → List Cluster × Bool
  | [] => ([], false)
  | c :: cs =>
    let a := absorbM t c cs
    let p := onePassM t a.2.1
    (a.1 :: p.1, a.2.2 || p.2)
termination_by l => l.length
decreasing_by
  simp only [List.length_cons]
  exact Nat.lt_succ_of_le (absorbM_kept_length t c cs)

theorem absorbM_proj (t : ℚ) (cur : Cluster) (l : List Cluster) :
    absorb t cur.1 (l.map Prod.fst) =
      ((absorbM t cur l).1.1, (absorbM t cur l).2.1.map Prod.fst,
        (absorbM t cur l).2.2) := by
  induction l generalizing cur with
  | nil => simp [absorb, absorbM]
  | cons c cs ih =>
    by_cases h : isNearby cur.1 c.1 t
    · simp only [List.map_cons, absorb, absorbM, h, if_true]
      exact congrArg (fun q => (q.1, q.2.1, true))
        (ih (rUnion cur.1 c.1, cur.2 ++ c.2))
    · have hn2 : isNearby cur.1 c.1 t = false := by simpa using h
      simp only [List.map_cons, absorb, absorbM, hn2, Bool.false_eq_true,
        if_false]
      rw [ih cur]

theorem onePassM_proj (t : ℚ) (l : List Cluster) :
    onePass t (l.map Prod.fst) =
      ((onePassM t l).1.map Prod.fst, (onePassM t l).2) := by
  induction l using onePassM.induct t with
  | case1 => simp [onePass, onePassM]
  | case2 c cs a ih =>
    have haEq : a = absorbM t c cs := rfl
    rw [haEq] at ih
    simp only [List.map_cons, onePass, onePassM]
    rw [absorbM_proj t c cs]
    simp only [List.map_cons]
    rw [ih]

theorem absorbM_kept_length_lt (t : ℚ) (cur : Cluster) (l : List Cluster)
    (h : (absorbM t cur l).2.2 = true) :
    (absorbM t cur l).2.1.length < l.length := by
  have hp := absorbM_proj t cur l
  have h2 : (absorb t cur.1 (l.map Prod.fst)).2.2 = true := by rw [hp]; exact h
  have := absorb_kept_length_lt t cur.1 (l.map Prod.fst) h2
  rw [hp] at this
  simpa using this

theorem onePassM_progress (t : ℚ) (l : List Cluster)
    (h : (onePassM t l).2 = true) :
    (onePassM t l).1.length < l.length := by
  have hp := onePassM_proj t l
  have h2 : (onePass t (l.map Prod.fst)).2 = true := by rw [hp]; exact h
  have := onePass_progress t (l.map Prod.fst) h2
  rw [hp] at this
  simpa using this

/-- Member-tracking version of `mergeLoop`. -/
def mergeLoopM (t : ℚ) (l : List Cluster) : List Cluster :=
  let p := onePassM t l
  if h : p.2 = true then mergeLoopM t p.1 else p.1
termination_by l.length
decreasing_by
  exact onePassM_progress t l h

theorem mergeLoopM_proj (t : ℚ) (l : List Cluster) :
    mergeLoop t (l.map Prod.fst) = (mergeLoopM t l).map Prod.fst := by
  induction l using mergeLoopM.induct t with
  | case1 l p hp ih =>
    have hpEq : p = onePassM t l := rfl
    rw [hpEq] at hp ih
    rw [mergeLoop, mergeLoopM]
    simp only [onePassM_proj t l, hp, dif_pos]
    exact ih
  | case2 l p hp =>
    have hpEq : p = onePassM t l := rfl
    rw [hpEq] at hp
    rw [mergeLoop, mergeLoopM]
    simp only [onePassM_proj t l, hp]
    simp

/-- The initial cluster list: each input rectangle, tagged with its list
index, is its own cluster. -/
def initClusters (l : List Rect) : List Cluster :=
  l.enum.map (fun p => (p.2, [p]))

/-- Member-tracking version of `mergeNearby`. -/
def mergeM (t : ℚ) (l : List Rect) : List Cluster :=
  if l = [] then [] else mergeLoopM t (initClusters l)

theorem initClusters_map_fst (l : List Rect) :
    (initClusters l).map Prod.fst = l := by
  rw [initClusters, List.map_map]
  exact List.enum_map_snd l

/-- The member-tracking merge projects onto the source merge. -/
theorem mergeM_proj (t : ℚ) (l : List Rect) :
    mergeNearby t l = (mergeM t l).map Prod.fst := by
  unfold mergeNearby mergeM
  by_cases h : l = []
  · simp [h]
  · simp only [h, if_false]
    have hm := mergeLoopM_proj t (initClusters l)
    rw [initClusters_map_fst] at hm
    exact hm

theorem rUnion_assoc (a b c : Rect) :
    rUnion (rUnion a b) c = rUnion a (rUnion b c) := by
  simp [rUnion, min_assoc, max_assoc]

theorem inside_refl (a : Rect) : a.inside a := by
  simp [Rect.inside]

theorem inside_trans {a b c : Rect} (h1 : a.inside b) (h2 : b.inside c) :
    a.inside c := by
  obtain ⟨x1, y1, x2, y2⟩ := h1
  obtain ⟨x3, y3, x4, y4⟩ := h2
  exact ⟨le_trans x3 x1, le_trans y3 y1, le_trans x2 x4, le_trans y2 y4⟩

theorem inside_rUnion_left (a b : Rect) : a.inside (rUnion a b) := by
  simp [Rect.inside, rUnion, le_max_left, min_le_left]

theorem inside_rUnion_right (a b : Rect) : b.inside (rUnion a b) := by
  simp [Rect.inside, rUnion, le_max_right, min_le_right]

theorem rUnion_inside {a b c : Rect} (h1 : a.inside c) (h2 : b.inside c) :
    (rUnion a b).inside c := by
  obtain ⟨x1, y1, x2, y2⟩ := h1
  obtain ⟨x3, y3, x4, y4⟩ := h2
  exact ⟨le_min x1 x3, le_min y1 y3, max_le x2 x4, max_le y2 y4⟩

theorem foldl_rUnion (s : List IRect) (hs : s ≠ []) (u : Rect) :
    s.foldl (fun b p => rUnion b p.2) u = rUnion u (bigBox s) := by
  induction s generalizing u with
  | nil => exact absurd rfl hs
  | cons m ms ih =>
    by_cases hm : ms = []
    · subst hm; simp [bigBox]
    · simp only [List.foldl_cons]
      rw [ih hm (rUnion u m.2), rUnion_assoc]
      congr 1
      show rUnion m.2 (bigBox ms) = bigBox (m :: ms)
      rw [show bigBox (m :: ms) = ms.foldl (fun b p => rUnion b p.2) m.2
        from rfl]
      rw [ih hm m.2]

theorem bigBox_cons (m : IRect) (ms : List IRect) (hm : ms ≠ []) :
    bigBox (m :: ms) = rUnion m.2 (bigBox ms) := by
  rw [show bigBox (m :: ms) = ms.foldl (fun b p => rUnion b p.2) m.2
    from rfl]
  exact foldl_rUnion ms hm m.2

theorem bigBox_append (s1 s2 : List IRect) (h1 : s1 ≠ []) (h2 : s2 ≠ []) :
    bigBox (s1 ++ s2) = rUnion (bigBox s1) (bigBox s2) := by
  obtain ⟨m, ms, rfl⟩ := List.exists_cons_of_ne_nil h1
  rw [List.cons_append]
  rw [show bigBox (m :: (ms ++ s2)) =
    (ms ++ s2).foldl (fun b p => rUnion b p.2) m.2 from rfl]
  rw [List.foldl_append]
  rw [foldl_rUnion s2 h2]
  rw [show ms.foldl (fun b p => rUnion b p.2) m.2 = bigBox (m :: ms)
    from rfl]

theorem mem_inside_bigBox {m : IRect} {s : List IRect} (h : m ∈ s) :
    m.2.inside (bigBox s) := by
  induction s with
  | nil => cases h
  | cons x xs ih =>
    by_cases hx : xs = []
    · subst hx
      rcases List.mem_singleton.mp h with rfl
      exact inside_refl _
    · rw [bigBox_cons x xs hx]
      rcases List.mem_cons.mp h with rfl | h
      · exact inside_rUnion_left _ _
      · exact inside_trans (ih h) (inside_rUnion_right _ _)

theorem bigBox_inside {s : List IRect} (hs : s ≠ []) {R : Rect}
    (h : ∀ m ∈ s, m.2.inside R) : (bigBox s).inside R := by
  induction s with
  | nil => exact absurd rfl hs
  | cons x xs ih =>
    by_cases hx : xs = []
    · subst hx
      simpa [bigBox] using h x (List.mem_singleton_self x)
    · rw [bigBox_cons x xs hx]
      exact rUnion_inside (h x (List.mem_cons_self x xs))
        (ih hx (fun m hm => h m (List.mem_cons_of_mem x hm)))

/-- The proposition behind the boolean `_is_nearby` test. -/
theorem isNearby_iff (a b : Rect) (t : ℚ) :
    isNearby a b t = true ↔
      (b.x0 ≤ a.x1 + t ∧ a.x0 ≤ b.x1 + t ∧ b.y0 ≤ a.y1 + t ∧
        a.y0 ≤ b.y1 + t) := by
  simp [isNearby, not_or, not_lt, and_assoc]

theorem isNearby_comm {a b : Rect} {t : ℚ} (h : isNearby a b t = true) :
    isNearby b a t = true := by
  rw [isNearby_iff] at h ⊢
  tauto

/-- Growing either rectangle or the threshold preserves nearness. -/
theorem isNearby_mono {a b a2 b2 : Rect} {t t2 : ℚ} (ha : a.inside a2)
    (hb : b.inside b2) (ht : t ≤ t2) (h : isNearby a b t = true) :
    isNearby a2 b2 t2 = true := by
  rw [isNearby_iff] at h ⊢
  obtain ⟨ha1, ha2, ha3, ha4⟩ := ha
  obtain ⟨hb1, hb2, hb3, hb4⟩ := hb
  obtain ⟨h1, h2, h3, h4⟩ := h
  refine ⟨?_, ?_, ?_, ?_⟩ <;> linarith

/-- Iterated connectivity of a member list: singletons are connected, and
two connected groups whose bounding boxes pass the nearby test may be
glued.  This is exactly how `_merge_nearby_bboxes` grows `current_bbox`. -/
inductive Conn (t : ℚ) : List IRect → Prop
  | single (m : IRect) : Conn t [m]
  | glue (s1 s2 : List IRect) : Conn t s1 → Conn t s2 →
      isNearby (bigBox s1) (bigBox s2) t = true → Conn t (s1 ++ s2)

theorem Conn.ne_nil {t : ℚ} {s : List IRect} (h : Conn t s) : s ≠ [] := by
  induction h with
  | single m => simp
  | glue s1 s2 h1 h2 hn ih1 ih2 => simp [ih1]

/-- The invariant carried by every cluster during the merge: nonempty
membership, the running union is the members' bounding box, and the
members are iteratively connected at threshold `t`. -/
def GoodCluster (t : ℚ) (c : Cluster) : Prop :=
  c.2 ≠ [] ∧ c.1 = bigBox c.2 ∧ Conn t c.2

theorem absorbM_good (t : ℚ) (cur : Cluster) (l : List Cluster)
    (hc : GoodCluster t cur) (hl : ∀ c ∈ l, GoodCluster t c) :
    GoodCluster t (absorbM t cur l).1 ∧
      ∀ c ∈ (absorbM t cur l).2.1, GoodCluster t c := by
  induction l generalizing cur with
  | nil => simpa [absorbM] using hc
  | cons c cs ih =>
    by_cases h : isNearby cur.1 c.1 t
    · simp only [absorbM, h, if_true]
      have hcGood := hl c (List.mem_cons_self c cs)
      obtain ⟨hne1, hbb1, hcn1⟩ := hc
      obtain ⟨hne2, hbb2, hcn2⟩ := hcGood
      have hnear : isNearby (bigBox cur.2) (bigBox c.2) t = true := by
        rw [← hbb1, ← hbb2]; exact h
      have hmerged : GoodCluster t (rUnion cur.1 c.1, cur.2 ++ c.2) := by
        refine ⟨by simp [hne1], ?_, Conn.glue _ _ hcn1 hcn2 hnear⟩
        show rUnion cur.1 c.1 = bigBox (cur.2 ++ c.2)
        rw [hbb1, hbb2, bigBox_append cur.2 c.2 hne1 hne2]
      exact ih _ hmerged (fun x hx => hl x (List.mem_cons_of_mem c hx))
    · simp only [absorbM, h, if_false]
      have := ih cur hc (fun x hx => hl x (List.mem_cons_of_mem c hx))
      refine ⟨this.1, ?_⟩
      intro x hx
      rcases List.mem_cons.mp hx with rfl | hx
      · exact hl x (List.mem_cons_self x cs)
      · exact this.2 x hx

theorem onePassM_good (t : ℚ) (l : List Cluster)
    (hl : ∀ c ∈ l, GoodCluster t c) :
    ∀ c ∈ (onePassM t l).1, GoodCluster t c := by
  induction l using onePassM.induct t with
  | case1 => simp [onePassM]
  | case2 c cs a ih =>
    have haEq : a = absorbM t c cs := rfl
    rw [haEq] at ih
    simp only [onePassM]
    have hgood := absorbM_good t c cs (hl c (List.mem_cons_self c cs))
      (fun x hx => hl x (List.mem_cons_of_mem c hx))
    intro x hx
    rcases List.mem_cons.mp hx with rfl | hx
    · exact hgood.1
    · exact ih hgood.2 x hx

theorem mergeLoopM_good (t : ℚ) (l : List Cluster)
    (hl : ∀ c ∈ l, GoodCluster t c) :
    ∀ c ∈ mergeLoopM t l, GoodCluster t c := by
  induction l using mergeLoopM.induct t with
  | case1 l p hp ih =>
    have hpEq : p = onePassM t l := rfl
    rw [hpEq] at hp ih
    rw [mergeLoopM]
    simp only [hp, dif_pos]
    exact ih (onePassM_good t l hl)
  | case2 l p hp =>
    have hpEq : p = onePassM t l := rfl
    rw [hpEq] at hp
    rw [mergeLoopM]
    simp only [hp, dite_false]
    exact onePassM_good t l hl

/-- Every cluster produced by the instrumented merge satisfies the
invariant. -/
theorem mergeM_good (t : ℚ) (l : List Rect) :
    ∀ c ∈ mergeM t l, GoodCluster t c := by
  unfold mergeM
  by_cases h : l = []
  · simp [h]
  · simp only [h, if_false]
    refine mergeLoopM_good t (initClusters l) ?_
    intro c hc
    simp only [initClusters, List.mem_map] at hc
    obtain ⟨p, hp, rfl⟩ := hc
    exact ⟨by simp, by simp [bigBox], Conn.single p⟩

/-- All members currently held by a cluster list. -/
def memsOf (l : List Cluster) : List IRect := l.flatMap (fun c => c.2)

theorem memsOf_cons (c : Cluster) (l : List Cluster) :
    memsOf (c :: l) = c.2 ++ memsOf l := by
  simp [memsOf]

theorem absorbM_perm (t : ℚ) (cur : Cluster) (l : List Cluster) :
    ((absorbM t cur l).1.2 ++ memsOf (absorbM t cur l).2.1).Perm
      (cur.2 ++ memsOf l) := by
  induction l generalizing cur with
  | nil => simp [absorbM, memsOf]
  | cons c cs ih =>
    by_cases h : isNearby cur.1 c.1 t
    · simp only [absorbM, h, if_true]
      have hx := ih (rUnion cur.1 c.1, cur.2 ++ c.2)
      rw [memsOf_cons, ← List.append_assoc]
      exact hx
    · have hn2 : isNearby cur.1 c.1 t = false := by simpa using h
      simp only [absorbM, hn2, Bool.false_eq_true, if_false]
      rw [memsOf_cons, memsOf_cons]
      have s1 : ((absorbM t cur cs).1.2 ++
          (c.2 ++ memsOf (absorbM t cur cs).2.1)).Perm
          (c.2 ++ ((absorbM t cur cs).1.2 ++ memsOf (absorbM t cur cs).2.1)) := by
        rw [← List.append_assoc, ← List.append_assoc]
        exact List.perm_append_comm.append_right _
      have s2 : (c.2 ++ ((absorbM t cur cs).1.2 ++
          memsOf (absorbM t cur cs).2.1)).Perm
          (c.2 ++ (cur.2 ++ memsOf cs)) := (ih cur).append_left c.2
      have s3 : (c.2 ++ (cur.2 ++ memsOf cs)).Perm
          (cur.2 ++ (c.2 ++ memsOf cs)) := by
        rw [← List.append_assoc, ← List.append_assoc]
        exact List.perm_append_comm.append_right _
      exact (s1.trans s2).trans s3

theorem onePassM_perm (t : ℚ) (l : List Cluster) :
    (memsOf (onePassM t l).1).Perm (memsOf l) := by
  induction l using onePassM.induct t with
  | case1 => simp [onePassM]
  | case2 c cs a ih =>
    have haEq : a = absorbM t c cs := rfl
    rw [haEq] at ih
    simp only [onePassM]
    rw [memsOf_cons, memsOf_cons]
    exact (ih.append_left _).trans (absorbM_perm t c cs)

theorem mergeLoopM_perm (t : ℚ) (l : List Cluster) :
    (memsOf (mergeLoopM t l)).Perm (memsOf l) := by
  induction l using mergeLoopM.induct t with
  | case1 l p hp ih =>
    have hpEq : p = onePassM t l := rfl
    rw [hpEq] at hp ih
    rw [mergeLoopM]
    simp only [hp, dif_pos]
    exact ih.trans (onePassM_perm t l)
  | case2 l p hp =>
    have hpEq : p = onePassM t l := rfl
    rw [hpEq] at hp
    rw [mergeLoopM]
    simp only [hp, dite_false]
    exact onePassM_perm t l

theorem flatMap_tag_mems (xs : List IRect) :
    ((xs.map (fun p => ((p.2, [p]) : Cluster))).flatMap (fun c => c.2)) = xs := by
  induction xs with
  | nil => simp
  | cons x l ih => simpa using ih

theorem memsOf_initClusters (l : List Rect) :
    memsOf (initClusters l) = l.enum := by
  rw [memsOf, initClusters]
  exact flatMap_tag_mems l.enum

/-- The members of the instrumented merge result are a permutation of the
indexed input. -/
theorem mergeM_perm (t : ℚ) (l : List Rect) :
    (memsOf (mergeM t l)).Perm l.enum := by
  unfold mergeM
  by_cases h : l = []
  · simp [h, memsOf]
  · simp only [h, if_false]
    exact (mergeLoopM_perm t (initClusters l)).trans
      (by rw [memsOf_initClusters])

theorem mergeM_ids_nodup (t : ℚ) (l : List Rect) :
    ((memsOf (mergeM t l)).map Prod.fst).Nodup := by
  have hperm := (mergeM_perm t l).map Prod.fst
  rw [List.enum_map_fst] at hperm
  exact hperm.symm.nodup (List.nodup_range _)

theorem memsOf_map_fst_eq (out : List Cluster) :
    (memsOf out).map Prod.fst =
      (out.map (fun c => c.2.map Prod.fst)).flatten := by
  induction out with
  | nil => simp [memsOf]
  | cons c cs ih =>
    rw [memsOf_cons, List.map_append, List.map_cons, List.flatten_cons, ih]

/-- With globally distinct member indices, a member determines its cluster
position. -/
theorem mems_block_unique (out : List Cluster)
    (nd : ((memsOf out).map Prod.fst).Nodup)
    {k k2 : ℕ} (hklt : k < out.length) (hk2lt : k2 < out.length) (m : IRect)
    (hk : m ∈ out[k].2) (hk2 : m ∈ out[k2].2) : k = k2 := by
  rw [memsOf_map_fst_eq] at nd
  obtain ⟨-, hdisj⟩ := List.nodup_flatten.mp nd
  have hblock : ∀ i j (hi : i < out.length) (hj : j < out.length), i < j →
      m ∈ out[i].2 → m ∈ out[j].2 → False := by
    intro i j hi hj hij h1 h2
    have hd := List.pairwise_iff_getElem.mp hdisj i j
      (by simpa using hi) (by simpa using hj) hij
    rw [List.getElem_map, List.getElem_map] at hd
    exact hd (List.mem_map_of_mem Prod.fst h1)
      (List.mem_map_of_mem Prod.fst h2)
  by_contra hne
  rcases lt_or_gt_of_ne hne with hlt | hgt
  · exact hblock k k2 hklt hk2lt hlt hk hk2
  · exact hblock k2 k hk2lt hklt hgt hk2 hk

/-- Key step of the threshold-monotonicity proof: a `t1`-connected member
group all of whose members occur in a cluster list that is a `t2`-fixed
point lands in a single cluster of that list. -/
theorem conn_lands (t1 t2 : ℚ) (ht : t1 ≤ t2) (out : List Cluster)
    (good : ∀ c ∈ out, c.2 ≠ [] ∧ c.1 = bigBox c.2)
    (hfix : out.Pairwise (fun c d => isNearby c.1 d.1 t2 = false))
    (nd : ((memsOf out).map Prod.fst).Nodup)
    {s : List IRect} (hs : Conn t1 s)
    (hsub : ∀ m ∈ s, m ∈ memsOf out) :
    ∃ k : ℕ, ∃ hklt : k < out.length, ∀ m ∈ s, m ∈ out[k].2 := by
  induction hs with
  | single m =>
    have hm : m ∈ memsOf out := hsub m (List.mem_singleton_self m)
    obtain ⟨c, hc, hmc⟩ := List.mem_flatMap.mp hm
    obtain ⟨k, hklt, hck⟩ := List.mem_iff_getElem.mp hc
    refine ⟨k, hklt, ?_⟩
    intro x hx
    rcases List.mem_singleton.mp hx with rfl
    rw [hck]
    exact hmc
  | glue s1 s2 h1 h2 hn ih1 ih2 =>
    obtain ⟨k1, hk1, hall1⟩ := ih1 (fun m hm =>
      hsub m (List.mem_append_left s2 hm))
    obtain ⟨k2, hk2, hall2⟩ := ih2 (fun m hm =>
      hsub m (List.mem_append_right s1 hm))
    by_cases heq : k1 = k2
    · subst heq
      refine ⟨k1, hk1, ?_⟩
      intro m hm
      rcases List.mem_append.mp hm with hm | hm
      · exact hall1 m hm
      · exact hall2 m hm
    · exfalso
      have hg1 := good out[k1] (List.getElem_mem hk1)
      have hg2 := good out[k2] (List.getElem_mem hk2)
      have hin1 : (bigBox s1).inside out[k1].1 := by
        rw [hg1.2]
        exact bigBox_inside h1.ne_nil
          (fun m hm => mem_inside_bigBox (hall1 m hm))
      have hin2 : (bigBox s2).inside out[k2].1 := by
        rw [hg2.2]
        exact bigBox_inside h2.ne_nil
          (fun m hm => mem_inside_bigBox (hall2 m hm))
      have hnear : isNearby out[k1].1 out[k2].1 t2 = true :=
        isNearby_mono hin1 hin2 ht hn
      rcases lt_or_gt_of_ne heq with hlt | hgt
      · have := List.pairwise_iff_getElem.mp hfix k1 k2 hk1 hk2 hlt
        rw [this] at hnear
        exact Bool.false_ne_true hnear
      · have hfalse := List.pairwise_iff_getElem.mp hfix k2 k1 hk2 hk1 hgt
        have htrue := isNearby_comm hnear
        rw [hfalse] at htrue
        exact Bool.false_ne_true htrue

/-- Abstract counting step: if `out1` partitions the members into
`t1`-connected clusters and `out2` is any `t2`-fixed-point clustering of
the same members with globally distinct indices, then `out2` has at most
as many clusters as `out1`. -/
theorem cluster_count_le (t1 t2 : ℚ) (ht : t1 ≤ t2)
    (out1 out2 : List Cluster)
    (good1 : ∀ c ∈ out1, GoodCluster t1 c)
    (good2 : ∀ c ∈ out2, c.2 ≠ [] ∧ c.1 = bigBox c.2)
    (hfix : out2.Pairwise (fun c d => isNearby c.1 d.1 t2 = false))
    (nd2 : ((memsOf out2).map Prod.fst).Nodup)
    (hsub : ∀ m : IRect, m ∈ memsOf out1 → m ∈ memsOf out2)
    (hsub2 : ∀ m : IRect, m ∈ memsOf out2 → m ∈ memsOf out1) :
    out2.length ≤ out1.length := by
  have land : ∀ i : Fin out1.length, ∃ k : Fin out2.length,
      ∀ m ∈ (out1.get i).2, m ∈ (out2.get k).2 := by
    intro i
    have hg := good1 (out1.get i) (out1.get_mem i.1 i.2)
    obtain ⟨k, hklt, hall⟩ := conn_lands t1 t2 ht out2 good2 hfix nd2
      hg.2.2 (fun m hm => hsub m
        (List.mem_flatMap.mpr ⟨out1.get i, out1.get_mem i.1 i.2, hm⟩))
    exact ⟨⟨k, hklt⟩, hall⟩
  choose f hf using land
  have hsurj : Function.Surjective f := by
    intro k
    have hg := good2 (out2.get k) (out2.get_mem k.1 k.2)
    obtain ⟨m, hm⟩ := List.exists_mem_of_ne_nil _ hg.1
    have hm2 : m ∈ memsOf out2 :=
      List.mem_flatMap.mpr ⟨out2.get k, out2.get_mem k.1 k.2, hm⟩
    obtain ⟨c, hc, hmc⟩ := List.mem_flatMap.mp (hsub2 m hm2)
    obtain ⟨i, hilt, hci⟩ := List.mem_iff_getElem.mp hc
    refine ⟨⟨i, hilt⟩, ?_⟩
    have hget : out1.get ⟨i, hilt⟩ = c := by
      rw [List.get_eq_getElem]
      exact hci
    have hin : m ∈ (out2.get (f ⟨i, hilt⟩)).2 :=
      hf ⟨i, hilt⟩ m (by rw [hget]; exact hmc)
    refine Fin.ext ?_
    refine mems_block_unique out2 nd2 (f ⟨i, hilt⟩).2 k.2 m ?_ ?_
    · rw [← List.get_eq_getElem]
      exact hin
    · rw [← List.get_eq_getElem]
      exact hm
  have hcard := Fintype.card_le_of_surjective f hsurj
  simpa using hcard

/-- Threshold monotonicity of the source merge. -/
theorem mergeNearby_length_mono (t1 t2 : ℚ) (ht : t1 ≤ t2) (R : List Rect) :
    (mergeNearby t2 R).length ≤ (mergeNearby t1 R).length := by
  rw [mergeM_proj t1 R, mergeM_proj t2 R, List.length_map, List.length_map]
  refine cluster_count_le t1 t2 ht (mergeM t1 R) (mergeM t2 R)
    (mergeM_good t1 R)
    (fun c hc => ⟨(mergeM_good t2 R c hc).1, (mergeM_good t2 R c hc).2.1⟩)
    ?_ (mergeM_ids_nodup t2 R) ?_ ?_
  · have hp := mergeNearby_pairwise t2 R
    rw [mergeM_proj t2 R] at hp
    exact List.pairwise_map.mp hp
  · intro m hm
    exact ((mergeM_perm t2 R).mem_iff).mpr
      (((mergeM_perm t1 R).mem_iff).mp hm)
  · intro m hm
    exact ((mergeM_perm t1 R).mem_iff).mpr
      (((mergeM_perm t2 R).mem_iff).mp hm)

/-! ### Stable sorting

Python's `sorted` / `list.sort` are stable.  `stableSort` is a stable
insertion sort: a new element is placed after every already-placed element
that compares `le` to it, so elements with equal keys keep their original
relative order. -/

/-- Insert `x` after every element `y` of the (already sorted) list with
`le y x`. -/
def insLE {α : Type} (le : α → α → Bool) (x : α) : List α → List α
  | [] => [x]
  | y :: ys => if le y x then y :: insLE le x ys else x :: y :: ys

/-- Stable insertion sort with comparator `le`. -/
def stableSort {α : Type} (le : α → α → Bool) (l : List α) : List α :=
  l.foldl (fun acc x => insLE le x acc) []

theorem insLE_perm {α : Type} (le : α → α → Bool) (x : α) (l : List α) :
    (insLE le x l).Perm (x :: l) := by
  induction l with
  | nil => simp [insLE]
  | cons y ys ih =>
    by_cases h : le y x
    · simp only [insLE, h, if_true]
      exact (ih.cons y).trans (List.Perm.swap x y ys)
    · simp only [insLE, h]
      simp

theorem foldl_insLE_perm {α : Type} (le : α → α → Bool) (l acc : List α) :
    (l.foldl (fun a x => insLE le x a) acc).Perm (acc ++ l) := by
  induction l generalizing acc with
  | nil => simp
  | cons x xs ih =>
    simp only [List.foldl_cons]
    have h1 := ih (insLE le x acc)
    have h2 : (insLE le x acc ++ xs).Perm ((x :: acc) ++ xs) :=
      (insLE_perm le x acc).append_right xs
    have h3 : ((x :: acc) ++ xs).Perm (acc ++ x :: xs) := by
      rw [List.cons_append]
      exact List.perm_middle.symm
    exact (h1.trans h2).trans h3

theorem stableSort_perm {α : Type} (le : α → α → Bool) (l : List α) :
    (stableSort le l).Perm l := by
  simpa using foldl_insLE_perm le l []

theorem insLE_pairwise {α : Type} (le : α → α → Bool)
    (htot : ∀ a b : α, le a b = false → le b a = true)
    (htrans : ∀ a b c : α, le a b = true → le b c = true → le a c = true)
    (x : α) (l : List α) (hl : l.Pairwise (fun a b => le a b = true)) :
    (insLE le x l).Pairwise (fun a b => le a b = true) := by
  induction l with
  | nil => simp [insLE]
  | cons y ys ih =>
    rcases List.pairwise_cons.mp hl with ⟨hy, hys⟩
    by_cases h : le y x
    · simp only [insLE, h, if_true]
      refine List.pairwise_cons.mpr ⟨?_, ih hys⟩
      intro b hb
      rcases List.mem_cons.mp (((insLE_perm le x ys).mem_iff).mp hb)
        with rfl | hb2
      · exact h
      · exact hy b hb2
    · have hxy : le x y = true := htot y x (by simpa using h)
      simp only [insLE, h]
      simp only [Bool.false_eq_true, if_false]
      refine List.pairwise_cons.mpr ⟨?_, hl⟩
      intro b hb
      rcases List.mem_cons.mp hb with rfl | hb2
      · exact hxy
      · exact htrans x y b hxy (hy b hb2)

theorem stableSort_pairwise {α : Type} (le : α → α → Bool)
    (htot : ∀ a b : α, le a b = false → le b a = true)
    (htrans : ∀ a b c : α, le a b = true → le b c = true → le a c = true)
    (l : List α) :
    (stableSort le l).Pairwise (fun a b => le a b = true) := by
  rw [stableSort]
  have haux : ∀ (xs acc : List α),
      acc.Pairwise (fun a b => le a b = true) →
      (xs.foldl (fun a x => insLE le x a) acc).Pairwise
        (fun a b => le a b = true) := by
    intro xs
    induction xs with
    | nil => intro acc h; simpa using h
    | cons x l2 ih =>
      intro acc h
      simp only [List.foldl_cons]
      exact ih _ (insLE_pairwise le htot htrans x acc h)
  exact haux l [] List.Pairwise.nil

/-! ### The reference matcher (`SmartAgent._match_figures_intelligently`)

`all_images` entries carry an id (the enumeration index assigned in
`load_pdf`), a page and a byte size; the saved path `raw_{id}.{ext}` is
determined by the id, so records store the id. -/

/-- One extracted image as registered by `SmartAgent.load_pdf`. -/
structure Image where
  page : ℤ
  size : ℕ
deriving DecidableEq, Repr

/-- One `figure_map` entry (the Python dict with keys `path`, `page`,
`subfigures`, `split_attempted`); `imgId` stands for the stored path
`raw_{imgId}.{ext}`. -/
structure FigRec where
  imgId : ℕ
  page : ℤ
  subfigures : List (String × String)
  splitAttempted : Bool
deriving DecidableEq, Repr

/-- The page window scanned for a figure first mentioned on page `fm`:
offsets `-2 .. 2`, keeping only positive page numbers. -/
def searchWindow (fm : ℤ) : List ℤ :=
  ((List.range 5).map (fun (o : ℕ) => fm - 2 + (o : ℤ))).filter (fun p =>
    decide (0 < p))

/-- Python `min(pages)` (the lists built by the matcher are nonempty; the
empty case returns a junk value). -/
def minPages : List ℤ → ℤ
  | [] => 0
  | p :: ps => ps.foldl min p

/-- Images on the window pages whose id is not already used. -/
def candidatePool (images : List (ℕ × Image)) (used : List ℕ)
    (window : List ℤ) : List (ℕ × Image) :=
  images.filter (fun x => decide (x.2.page ∈ window) && decide (x.1 ∉ used))

/-- The tiered size threshold: prefer candidates above 50 KB, else above
20 KB, else everything. -/
def pickTier (cand : List (ℕ × Image)) : List (ℕ × Image) :=
  let l1 := cand.filter (fun x => decide (50000 < x.2.size))
  if l1 ≠ [] then l1
  else
    let l2 := cand.filter (fun x => decide (20000 < x.2.size))
    if l2 ≠ [] then l2 else cand

/-- Python `max(lst, key=size)`: the first element of maximal size. -/
def bestImage (x : ℕ × Image) (l : List (ℕ × Image)) : ℕ × Image :=
  l.foldl (fun b a => if b.2.size < a.2.size then a else b) x

/-- The per-citation matching loop (strategy 1 of
`_match_figures_intelligently`), processing figure numbers in the given
order and threading the used-id set.  Returns the accumulated map entries
and the final used set. -/
def primaryPass (images : List (ℕ × Image)) :
    List (ℕ × List ℤ) → List ℕ → List (ℕ × Option FigRec) × List ℕ
  | [], used => ([], used)
  | (fig, pages) :: rest, used =>
    let cand := candidatePool images used (searchWindow (minPages pages))
    match cand with
    | [] =>
      let p := primaryPass images rest used
      ((fig, none) :: p.1, p.2)
    | c :: cs =>
      match pickTier (c :: cs) with
      | [] =>
        let p := primaryPass images rest used
        ((fig, none) :: p.1, p.2)
      | b :: bs =>
        let best := bestImage b bs
        let p := primaryPass images rest (best.1 :: used)
        ((fig, some ⟨best.1, best.2.page, [], false⟩) :: p.1, p.2)

/-- Keep the first occurrence of each figure number (`figure_pages` is a
dict, so every key occurs once; this canonicalizes arbitrary inputs the
same way). -/
def dedupKeys : List (ℕ × List ℤ) → List ℕ → List (ℕ × List ℤ)
  | [], _ => []
  | x :: xs, seen =>
    if x.1 ∈ seen then dedupKeys xs seen
    else x :: dedupKeys xs (x.1 :: seen)

/-- Python `sorted(figure_pages.keys())`. -/
def sortByKey (l : List (ℕ × List ℤ)) : List (ℕ × List ℤ) :=
  stableSort (fun a b => decide (a.1 ≤ b.1)) l

/-- Keys of a figure map. -/
def mapKeys (m : List (ℕ × Option FigRec)) : List ℕ := m.map Prod.fst

/-- Python `max(figure_map.keys())` (junk on empty, never used there). -/
def maxKey : List ℕ → ℕ
  | [] => 0
  | k :: ks => ks.foldl max k

/-- The `while next_fig_num in figure_map: next_fig_num += 1` loop.  The
fuel `keys.length + 1` always suffices: among `keys.length + 1` successive
numbers one is outside `keys`. -/
def bumpAux (keys : List ℕ) : ℕ → ℕ → ℕ
  | 0, n => n
  | f + 1, n => if n ∈ keys then bumpAux keys f (n + 1) else n

/-- First free figure number at or after `n`. -/
def bump (keys : List ℕ) (n : ℕ) : ℕ := bumpAux keys (keys.length + 1) n

/-- Strategy 2 of `_match_figures_intelligently`: assign the still-unused
large images fresh figure numbers. -/
def fallbackLoop (m : List (ℕ × Option FigRec)) (used : List ℕ) (next : ℕ) :
    List (ℕ × Image) → List (ℕ × Option FigRec) × List ℕ
  | [] => (m, used)
  | img :: imgs =>
    let n := bump (mapKeys m) next
    fallbackLoop (m ++ [(n, some ⟨img.1, img.2.page, [], false⟩)])
      (img.1 :: used) (n + 1) imgs

/-- Python sort key `(page, -size)` as a boolean `le`. -/
def fbLE (y x : ℕ × Image) : Bool :=
  decide (y.2.page < x.2.page) ||
    (decide (y.2.page = x.2.page) && decide (x.2.size ≤ y.2.size))

/-- Embedding of `_match_figures_intelligently`, taking the collected
`figure_pages` association (figure number → pages citing it) and the
enumerated image list. -/
def matchFigures (raw : List Image) (figPages : List (ℕ × List ℤ)) :
    List (ℕ × Option FigRec) :=
  let images := raw.enum
  let fp := sortByKey (dedupKeys figPages [])
  let pr := primaryPass images fp []
  let unmatched := images.filter (fun x =>
    decide (x.1 ∉ pr.2) && decide (50000 < x.2.size))
  let fbImgs := stableSort fbLE unmatched
  let next := if pr.1 = [] then 1 else maxKey (mapKeys pr.1) + 1
  (fallbackLoop pr.1 pr.2 next fbImgs).1

/-- Image ids bound by a figure map (each stands for the stored path). -/
def boundIds (m : List (ℕ × Option FigRec)) : List ℕ :=
  m.filterMap (fun e => e.2.map FigRec.imgId)

theorem bestImage_mem (x : ℕ × Image) (l : List (ℕ × Image)) :
    bestImage x l ∈ x :: l := by
  induction l generalizing x with
  | nil => simp [bestImage]
  | cons a as ih =>
    have hunf : bestImage x (a :: as) =
        bestImage (if x.2.size < a.2.size then a else x) as := rfl
    rw [hunf]
    by_cases h : x.2.size < a.2.size
    · simp only [h, if_true]
      exact List.mem_cons_of_mem x (ih a)
    · simp only [h, if_false]
      rcases List.mem_cons.mp (ih x) with h1 | h1
      · rw [h1]
        exact List.mem_cons_self _ _
      · exact List.mem_cons_of_mem x (List.mem_cons_of_mem a h1)

theorem candidatePool_mem {images : List (ℕ × Image)} {used : List ℕ}
    {w : List ℤ} {y : ℕ × Image} (h : y ∈ candidatePool images used w) :
    y ∈ images ∧ y.2.page ∈ w ∧ y.1 ∉ used := by
  have := List.mem_filter.mp h
  simpa using this

theorem pickTier_subset {cand : List (ℕ × Image)} {y : ℕ × Image}
    (h : y ∈ pickTier cand) : y ∈ cand := by
  unfold pickTier at h
  by_cases h1 : cand.filter (fun x => decide (50000 < x.2.size)) ≠ []
  · rw [if_pos h1] at h
    exact List.mem_of_mem_filter h
  · rw [if_neg h1] at h
    by_cases h2 : cand.filter (fun x => decide (20000 < x.2.size)) ≠ []
    · rw [if_pos h2] at h
      exact List.mem_of_mem_filter h
    · rw [if_neg h2] at h
      exact h

theorem pickTier_ne_nil {cand : List (ℕ × Image)} (h : cand ≠ []) :
    pickTier cand ≠ [] := by
  unfold pickTier
  by_cases h1 : cand.filter (fun x => decide (50000 < x.2.size)) ≠ []
  · rw [if_pos h1]
    exact h1
  · rw [if_neg h1]
    by_cases h2 : cand.filter (fun x => decide (20000 < x.2.size)) ≠ []
    · rw [if_pos h2]
      exact h2
    · rw [if_neg h2]
      exact h

theorem primaryPass_spec (images : List (ℕ × Image))
    (fp : List (ℕ × List ℤ)) (used : List ℕ) :
    (∀ j ∈ used, j ∈ (primaryPass images fp used).2) ∧
    (boundIds (primaryPass images fp used).1).Nodup ∧
    (∀ i ∈ boundIds (primaryPass images fp used).1,
      i ∈ (primaryPass images fp used).2 ∧ i ∉ used) := by
  induction fp generalizing used with
  | nil => simp [primaryPass, boundIds]
  | cons e rest ih =>
    obtain ⟨fig, pages⟩ := e
    cases hc : candidatePool images used (searchWindow (minPages pages)) with
    | nil =>
      simp only [primaryPass, hc]
      have hr := ih used
      refine ⟨hr.1, ?_, ?_⟩
      · simpa [boundIds] using hr.2.1
      · simpa [boundIds] using hr.2.2
    | cons c cs =>
      cases hp : pickTier (c :: cs) with
      | nil => exact absurd hp (pickTier_ne_nil (by simp))
      | cons b bs =>
        simp only [primaryPass, hc, hp]
        have hbmem : bestImage b bs ∈ c :: cs := by
          have h1 := bestImage_mem b bs
          rw [← hp] at h1
          exact pickTier_subset h1
        have hbpool : (bestImage b bs).1 ∉ used := by
          have := candidatePool_mem (hc ▸ hbmem)
          exact this.2.2
        have hr := ih ((bestImage b bs).1 :: used)
        have hbound : boundIds ((fig, some
            (⟨(bestImage b bs).1, (bestImage b bs).2.page, [], false⟩ :
              FigRec)) ::
            (primaryPass images rest ((bestImage b bs).1 :: used)).1) =
            (bestImage b bs).1 ::
              boundIds (primaryPass images rest
                ((bestImage b bs).1 :: used)).1 := by
          simp [boundIds]
        rw [hbound]
        refine ⟨?_, ?_, ?_⟩
        · intro j hj
          exact hr.1 j (List.mem_cons_of_mem _ hj)
        · refine List.nodup_cons.mpr ⟨?_, hr.2.1⟩
          intro hmem
          exact (hr.2.2 _ hmem).2 (List.mem_cons_self _ _)
        · intro i hi
          rcases List.mem_cons.mp hi with rfl | hi2
          · exact ⟨hr.1 _ (List.mem_cons_self _ _), hbpool⟩
          · have h3 := hr.2.2 i hi2
            exact ⟨h3.1, fun hbad => h3.2 (List.mem_cons_of_mem _ hbad)⟩

theorem primaryPass_keys (images : List (ℕ × Image))
    (fp : List (ℕ × List ℤ)) (used : List ℕ) :
    (primaryPass images fp used).1.map Prod.fst = fp.map Prod.fst := by
  induction fp generalizing used with
  | nil => simp [primaryPass]
  | cons e rest ih =>
    obtain ⟨fig, pages⟩ := e
    cases hc : candidatePool images used (searchWindow (minPages pages)) with
    | nil => simpa [primaryPass, hc] using ih used
    | cons c cs =>
      cases hp : pickTier (c :: cs) with
      | nil => exact absurd hp (pickTier_ne_nil (by simp))
      | cons b bs => simpa [primaryPass, hc, hp] using ih _

theorem boundIds_append (a b : List (ℕ × Option FigRec)) :
    boundIds (a ++ b) = boundIds a ++ boundIds b := by
  simp [boundIds, List.filterMap_append]

theorem fallbackLoop_nodup (imgs : List (ℕ × Image))
    (m : List (ℕ × Option FigRec)) (used : List ℕ) (next : ℕ)
    (hm : (boundIds m).Nodup) (himgs : (imgs.map Prod.fst).Nodup)
    (hdisj : ∀ x ∈ imgs, x.1 ∉ boundIds m) :
    (boundIds (fallbackLoop m used next imgs).1).Nodup := by
  induction imgs generalizing m used next with
  | nil => simpa [fallbackLoop] using hm
  | cons img rest ih =>
    simp only [fallbackLoop]
    have himgs2 : img.1 ∉ rest.map Prod.fst ∧
        (rest.map Prod.fst).Nodup := by
      rw [List.map_cons] at himgs
      exact List.nodup_cons.mp himgs
    obtain ⟨hhd, htl⟩ := himgs2
    apply ih
    · rw [boundIds_append]
      rw [List.nodup_append]
      refine ⟨hm, by simp [boundIds], ?_⟩
      intro a ha hb
      simp only [boundIds, List.filterMap, Option.map_some] at hb
      have hb2 : a = img.1 := by simpa [boundIds] using hb
      subst hb2
      exact hdisj img (List.mem_cons_self _ _) ha
    · exact htl
    · intro x hx
      rw [boundIds_append]
      rw [List.mem_append]
      push_neg
      refine ⟨hdisj x (List.mem_cons_of_mem _ hx), ?_⟩
      have hxne : x.1 ≠ img.1 := by
        intro hbad
        exact hhd (hbad ▸ List.mem_map_of_mem Prod.fst hx)
      simpa [boundIds] using hxne

/-- Claim C2's backbone: after the primary and fallback passes no image id
occurs twice among the bound records. -/
theorem matchFigures_nodup (raw : List Image)
    (figPages : List (ℕ × List ℤ)) :
    (boundIds (matchFigures raw figPages)).Nodup := by
  have hspec := primaryPass_spec raw.enum
    (sortByKey (dedupKeys figPages [])) []
  refine fallbackLoop_nodup _ _ _ _ hspec.2.1 ?_ ?_
  · have hperm := (stableSort_perm fbLE (raw.enum.filter (fun x =>
      decide (x.1 ∉ (primaryPass raw.enum
        (sortByKey (dedupKeys figPages [])) []).2) &&
      decide (50000 < x.2.size)))).map Prod.fst
    refine hperm.symm.nodup ?_
    have hsub : ((raw.enum.filter (fun x =>
        decide (x.1 ∉ (primaryPass raw.enum
          (sortByKey (dedupKeys figPages [])) []).2) &&
        decide (50000 < x.2.size))).map Prod.fst).Sublist
        (raw.enum.map Prod.fst) :=
      (List.filter_sublist raw.enum).map Prod.fst
    rw [List.enum_map_fst] at hsub
    exact hsub.nodup (List.nodup_range _)
  · intro x hx
    have hx2 : x ∈ raw.enum.filter (fun x =>
        decide (x.1 ∉ (primaryPass raw.enum
          (sortByKey (dedupKeys figPages [])) []).2) &&
        decide (50000 < x.2.size)) :=
      ((stableSort_perm fbLE _).mem_iff).mp hx
    have hx3 := List.mem_filter.mp hx2
    have hnotused : x.1 ∉ (primaryPass raw.enum
        (sortByKey (dedupKeys figPages [])) []).2 := by
      have := hx3.2
      simp only [Bool.and_eq_true, decide_eq_true_eq] at this
      exact this.1
    intro hbad
    exact hnotused (hspec.2.2 x.1 hbad).1

/-- A figure number with an empty candidate pool yields an explicit
`none` entry and the pass continues unchanged (no exception is possible:
the function is total). -/
theorem primaryPass_empty_pool (images : List (ℕ × Image)) (fig : ℕ)
    (pages : List ℤ) (rest : List (ℕ × List ℤ)) (used : List ℕ)
    (h : candidatePool images used (searchWindow (minPages pages)) = []) :
    primaryPass images ((fig, pages) :: rest) used =
      ((fig, none) :: (primaryPass images rest used).1,
        (primaryPass images rest used).2) := by
  simp only [primaryPass, h]

theorem lookup_isSome_of_mem_keys {m : List (ℕ × Option FigRec)} {k : ℕ}
    (h : k ∈ m.map Prod.fst) : (List.lookup k m).isSome := by
  induction m with
  | nil => simp at h
  | cons e rest ih =>
    obtain ⟨k1, v1⟩ := e
    by_cases hk : k = k1
    · subst hk
      simp [List.lookup_cons]
    · have hk2 : (k == k1) = false := by simpa using hk
      simp only [List.lookup_cons, hk2]
      apply ih
      rw [List.map_cons] at h
      rcases List.mem_cons.mp h with h1 | h2
      · exact absurd h1 hk
      · exact h2

theorem lookup_append_left {m l : List (ℕ × Option FigRec)} {k : ℕ}
    (h : (List.lookup k m).isSome) :
    List.lookup k (m ++ l) = List.lookup k m := by
  induction m with
  | nil => simp [List.lookup] at h
  | cons e rest ih =>
    obtain ⟨k1, v1⟩ := e
    by_cases hk : k = k1
    · subst hk
      simp [List.lookup_cons]
    · have hk2 : (k == k1) = false := by simpa using hk
      rw [List.cons_append]
      simp only [List.lookup_cons, hk2] at h ⊢
      exact ih h

theorem fallbackLoop_prefix (imgs : List (ℕ × Image))
    (m : List (ℕ × Option FigRec)) (used : List ℕ) (next : ℕ) :
    ∃ ext, (fallbackLoop m used next imgs).1 = m ++ ext := by
  induction imgs generalizing m used next with
  | nil => exact ⟨[], by simp [fallbackLoop]⟩
  | cons img rest ih =>
    simp only [fallbackLoop]
    obtain ⟨ext, hext⟩ := ih (m ++ [(bump (mapKeys m) next,
      some ⟨img.1, img.2.page, [], false⟩)]) (img.1 :: used)
      (bump (mapKeys m) next + 1)
    exact ⟨[(bump (mapKeys m) next,
      some ⟨img.1, img.2.page, [], false⟩)] ++ ext,
      by rw [hext, List.append_assoc]⟩

theorem dedupKeys_mem_keys (l : List (ℕ × List ℤ)) (seen : List ℕ)
    (n : ℕ) :
    n ∈ (dedupKeys l seen).map Prod.fst ↔
      (n ∈ l.map Prod.fst ∧ n ∉ seen) := by
  induction l generalizing seen with
  | nil => simp [dedupKeys]
  | cons x xs ih =>
    by_cases hx : x.1 ∈ seen
    · rw [show dedupKeys (x :: xs) seen = dedupKeys xs seen by
        simp [dedupKeys, hx]]
      rw [ih seen]
      rw [List.map_cons]
      constructor
      · exact fun ⟨h1, h2⟩ => ⟨List.mem_cons_of_mem _ h1, h2⟩
      · rintro ⟨h1, h2⟩
        rcases List.mem_cons.mp h1 with rfl | h3
        · exact absurd hx h2
        · exact ⟨h3, h2⟩
    · rw [show dedupKeys (x :: xs) seen = x :: dedupKeys xs (x.1 :: seen) by
        simp [dedupKeys, hx]]
      rw [List.map_cons, List.map_cons]
      constructor
      · intro h1
        rcases List.mem_cons.mp h1 with rfl | h2
        · exact ⟨List.mem_cons_self _ _, hx⟩
        · obtain ⟨h3, h4⟩ := (ih (x.1 :: seen)).mp h2
          exact ⟨List.mem_cons_of_mem _ h3,
            fun hbad => h4 (List.mem_cons_of_mem _ hbad)⟩
      · rintro ⟨h1, h2⟩
        rcases List.mem_cons.mp h1 with rfl | h3
        · exact List.mem_cons_self _ _
        · by_cases hnx : n = x.1
          · exact hnx ▸ List.mem_cons_self _ _
          · exact List.mem_cons_of_mem _ ((ih (x.1 :: seen)).mpr
              ⟨h3, by
                intro hbad
                rcases List.mem_cons.mp hbad with h5 | h5
                · exact hnx h5
                · exact h2 h5⟩)

/-- Every cited figure number receives an entry in the final figure map:
the matching pass never aborts. -/
theorem matchFigures_lookup_isSome (raw : List Image)
    (figPages : List (ℕ × List ℤ)) (n : ℕ)
    (hn : n ∈ figPages.map Prod.fst) :
    (List.lookup n (matchFigures raw figPages)).isSome := by
  have hkey : n ∈ (sortByKey (dedupKeys figPages [])).map Prod.fst := by
    have hperm := (stableSort_perm
      (fun a b => decide (a.1 ≤ b.1)) (dedupKeys figPages [])).map Prod.fst
    rw [sortByKey]
    refine (hperm.mem_iff).mpr ?_
    exact (dedupKeys_mem_keys figPages [] n).mpr ⟨hn, by simp⟩
  have hpk : n ∈ (primaryPass raw.enum
      (sortByKey (dedupKeys figPages [])) []).1.map Prod.fst := by
    rw [primaryPass_keys]
    exact hkey
  have hsome := lookup_isSome_of_mem_keys hpk
  obtain ⟨ext, hext⟩ := fallbackLoop_prefix
    (stableSort fbLE (raw.enum.filter (fun x =>
      decide (x.1 ∉ (primaryPass raw.enum
        (sortByKey (dedupKeys figPages [])) []).2) &&
      decide (50000 < x.2.size))))
    (primaryPass raw.enum (sortByKey (dedupKeys figPages [])) []).1
    (primaryPass raw.enum (sortByKey (dedupKeys figPages [])) []).2
    (if (primaryPass raw.enum (sortByKey (dedupKeys figPages [])) []).1 = []
      then 1
      else maxKey (mapKeys (primaryPass raw.enum
        (sortByKey (dedupKeys figPages [])) []).1) + 1)
  have hm : matchFigures raw figPages =
      (primaryPass raw.enum (sortByKey (dedupKeys figPages [])) []).1 ++
        ext := hext
  rw [hm, lookup_append_left hsome]
  exact hsome

/-! ### Extraction pipeline (`ImprovedPDFParser.parse` and helpers)

External inputs per page — the placement rectangles reported by
`page.get_image_rects`, the embedded objects (first placement rectangle
plus byte size) used by the merging strategy, and the page dimensions —
are data of `PageData`.  Rasterization (`page.get_pixmap(...).tobytes`)
is an oracle from page number and clip rectangle to the byte size of the
produced PNG. -/

/-- One embedded image object as used by `_extract_by_merging`: its first
placement rectangle and its byte size. -/
structure RawImg where
  bbox : Rect
  size : ℕ
deriving DecidableEq, Repr

/-- Externally supplied data of one page. -/
structure PageData where
  width : ℚ
  height : ℚ
  cropRects : List Rect
  rawImgs : List RawImg
deriving Repr

/-- One entry of the `figures` list returned by `parse` (`page`, `index`,
byte size of `data`, and the stored bbox; the source stores the bbox of
the region-crop strategy as an `(x, y, w, h)` tuple and the other
strategies as a rect — both determine and are determined by this
rectangle). -/
structure FigOut where
  page : ℤ
  index : ℕ
  bbox : Rect
  size : ℕ
deriving DecidableEq, Repr

/-- Rectangle area as computed in `_extract_by_region_crop`. -/
def area (b : Rect) : ℚ := (b.x1 - b.x0) * (b.y1 - b.y0)

/-- Aspect ratio `max(w, h) / max(min(w, h), 1)`. -/
def aspectRatio (b : Rect) : ℚ :=
  max (b.x1 - b.x0) (b.y1 - b.y0) / max (min (b.x1 - b.x0) (b.y1 - b.y0)) 1

/-- The margin-expanded clip rectangle (`margin = 5`, clamped to the page
rectangle). -/
def expandClip (pd : PageData) (b : Rect) : Rect :=
  ⟨max 0 (b.x0 - 5), max 0 (b.y0 - 5),
    min pd.width (b.x1 + 5), min pd.height (b.y1 + 5)⟩

/-- Embedding of `_extract_by_region_crop`: merge the placement
rectangles at threshold 80, filter by area and aspect ratio, then
rasterize each region, dropping those below the byte-size threshold. -/
def extractByRegionCrop (raster : ℤ → Rect → ℕ) (minImageSize : ℕ)
    (minBboxArea maxAspect : ℚ) (pd : PageData) (pageNum : ℤ) :
    List FigOut :=
  let merged := mergeNearby 80 pd.cropRects
  let filtered := merged.filter (fun b =>
    !(decide (area b < minBboxArea)) && !(decide (maxAspect < aspectRatio b)))
  filtered.enum.filterMap (fun p =>
    let sz := raster pageNum (expandClip pd p.2)
    if sz < minImageSize then none
    else some ⟨pageNum, p.1, p.2, sz⟩)

/-- One step of `_group_nearby_images`: try to append `img` to the first
group holding a member within distance 50; `none` when no group accepts
it. -/
def groupStep (img : RawImg) : List (List RawImg) →
    Option (List (List RawImg))
  | [] => none
  | g :: gs =>
    if g.any (fun e => isNearby img.bbox e.bbox 50) then
      some ((g ++ [img]) :: gs)
    else (groupStep img gs).map (fun gs2 => g :: gs2)

/-- Embedding of `_group_nearby_images`. -/
def groupNearby : List RawImg → List (List RawImg)
  | [] => []
  | x :: xs => xs.foldl (fun gs img =>
      match groupStep img gs with
      | some gs2 => gs2
      | none => gs ++ [[img]]) [[x]]

/-- Embedding of `_merge_bboxes_to_one`. -/
def mergeOne : List Rect → Rect
  | [] => ⟨0, 0, 0, 0⟩
  | b :: bs => bs.foldl rUnion b

/-- Embedding of `_extract_by_merging`. -/
def extractByMerging (raster : ℤ → Rect → ℕ) (minImageSize : ℕ)
    (pd : PageData) (pageNum : ℤ) : List FigOut :=
  let data := pd.rawImgs.filter (fun r => decide (5000 < r.size))
  let groups := groupNearby data
  groups.enum.filterMap (fun p =>
    match p.2 with
    | [img] =>
      if minImageSize ≤ img.size then
        some ⟨pageNum, p.1, img.bbox, img.size⟩
      else none
    | imgs =>
      let mb := mergeOne (imgs.map RawImg.bbox)
      let sz := raster pageNum mb
      if minImageSize ≤ sz then some ⟨pageNum, p.1, mb, sz⟩ else none)

/-- One page of `parse` in `hybrid` mode (the mode set by `SmartAgent`):
region crop first, the merging strategy when it found nothing. -/
def parsePage (raster : ℤ → Rect → ℕ) (minImageSize : ℕ)
    (minBboxArea maxAspect : ℚ) (pd : PageData) (pageNum : ℤ) :
    List FigOut :=
  let rc := extractByRegionCrop raster minImageSize minBboxArea maxAspect
    pd pageNum
  if rc = [] then extractByMerging raster minImageSize pd pageNum else rc

/-- The `figures` list of `parse`: pages processed in order, page numbers
starting at 1. -/
def parseFigures (raster : ℤ → Rect → ℕ) (minImageSize : ℕ)
    (minBboxArea maxAspect : ℚ) (doc : List PageData) : List FigOut :=
  doc.enum.flatMap (fun p =>
    parsePage raster minImageSize minBboxArea maxAspect p.2 ((p.1 : ℤ) + 1))

/-- The enumeration performed by `SmartAgent.load_pdf`: each figure gets
`id = idx` in the order `parse` returned them (the saved file is
`raw_{idx}.{ext}`). -/
def allImagesOf (raster : ℤ → Rect → ℕ) (minImageSize : ℕ)
    (minBboxArea maxAspect : ℚ) (doc : List PageData) :
    List (ℕ × FigOut) :=
  (parseFigures raster minImageSize minBboxArea maxAspect doc).enum

theorem extractByRegionCrop_page (raster : ℤ → Rect → ℕ)
    (minImageSize : ℕ) (minBboxArea maxAspect : ℚ) (pd : PageData)
    (pageNum : ℤ) {f : FigOut}
    (h : f ∈ extractByRegionCrop raster minImageSize minBboxArea maxAspect
      pd pageNum) : f.page = pageNum := by
  unfold extractByRegionCrop at h
  obtain ⟨p, hp, hf⟩ := List.mem_filterMap.mp h
  by_cases hsz : raster pageNum (expandClip pd p.2) < minImageSize
  · simp [hsz] at hf
  · simp only [hsz, if_false] at hf
    rw [← Option.some_inj.mp hf]

theorem extractByMerging_page (raster : ℤ → Rect → ℕ) (minImageSize : ℕ)
    (pd : PageData) (pageNum : ℤ) {f : FigOut}
    (h : f ∈ extractByMerging raster minImageSize pd pageNum) :
    f.page = pageNum := by
  unfold extractByMerging at h
  obtain ⟨p, hp, hf⟩ := List.mem_filterMap.mp h
  rcases p with ⟨idx, g⟩
  match g with
  | [img] =>
    dsimp only at hf
    split at hf
    · rw [← Option.some_inj.mp hf]
    · exact absurd hf (by simp)
  | [] =>
    dsimp only at hf
    split at hf
    · rw [← Option.some_inj.mp hf]
    · exact absurd hf (by simp)
  | a :: b :: rest =>
    dsimp only at hf
    split at hf
    · rw [← Option.some_inj.mp hf]
    · exact absurd hf (by simp)

theorem parsePage_page (raster : ℤ → Rect → ℕ) (minImageSize : ℕ)
    (minBboxArea maxAspect : ℚ) (pd : PageData) (pageNum : ℤ) {f : FigOut}
    (h : f ∈ parsePage raster minImageSize minBboxArea maxAspect pd
      pageNum) : f.page = pageNum := by
  unfold parsePage at h
  by_cases hrc : extractByRegionCrop raster minImageSize minBboxArea
      maxAspect pd pageNum = []
  · rw [if_pos hrc] at h
    exact extractByMerging_page raster minImageSize pd pageNum h
  · rw [if_neg hrc] at h
    exact extractByRegionCrop_page raster minImageSize minBboxArea
      maxAspect pd pageNum h

theorem pairwise_page_of_const {l : List FigOut} {pn : ℤ}
    (h : ∀ f ∈ l, f.page = pn) :
    l.Pairwise (fun a b => a.page ≤ b.page) := by
  induction l with
  | nil => exact List.Pairwise.nil
  | cons x xs ih =>
    refine List.pairwise_cons.mpr ⟨?_, ih (fun f hf =>
      h f (List.mem_cons_of_mem x hf))⟩
    intro b hb
    rw [h x (List.mem_cons_self x xs), h b (List.mem_cons_of_mem x hb)]

theorem enumFrom_flatMap_page_lb (raster : ℤ → Rect → ℕ)
    (minImageSize : ℕ) (minBboxArea maxAspect : ℚ) (doc : List PageData)
    (k : ℕ) {f : FigOut}
    (h : f ∈ (doc.enumFrom k).flatMap (fun p =>
      parsePage raster minImageSize minBboxArea maxAspect p.2
        ((p.1 : ℤ) + 1))) :
    (k : ℤ) + 1 ≤ f.page := by
  induction doc generalizing k with
  | nil => simp at h
  | cons pd rest ih =>
    rw [List.enumFrom_cons, List.flatMap_cons] at h
    rcases List.mem_append.mp h with h1 | h1
    · rw [parsePage_page raster minImageSize minBboxArea maxAspect pd
        ((k : ℤ) + 1) h1]
    · have := ih (k + 1) h1
      push_cast at this ⊢
      linarith

theorem enumFrom_flatMap_pairwise (raster : ℤ → Rect → ℕ)
    (minImageSize : ℕ) (minBboxArea maxAspect : ℚ) (doc : List PageData)
    (k : ℕ) :
    ((doc.enumFrom k).flatMap (fun p =>
      parsePage raster minImageSize minBboxArea maxAspect p.2
        ((p.1 : ℤ) + 1))).Pairwise (fun a b => a.page ≤ b.page) := by
  induction doc generalizing k with
  | nil => simp
  | cons pd rest ih =>
    rw [List.enumFrom_cons, List.flatMap_cons]
    rw [List.pairwise_append]
    refine ⟨pairwise_page_of_const (fun f hf =>
      parsePage_page raster minImageSize minBboxArea maxAspect pd
        ((k : ℤ) + 1) hf), ih (k + 1), ?_⟩
    intro a ha b hb
    rw [parsePage_page raster minImageSize minBboxArea maxAspect pd
      ((k : ℤ) + 1) ha]
    have := enumFrom_flatMap_page_lb raster minImageSize minBboxArea
      maxAspect rest (k + 1) hb
    push_cast at this ⊢
    linarith

/-- Pages appear in nondecreasing order in the parsed figure list. -/
theorem parseFigures_pages_mono (raster : ℤ → Rect → ℕ)
    (minImageSize : ℕ) (minBboxArea maxAspect : ℚ) (doc : List PageData) :
    (parseFigures raster minImageSize minBboxArea maxAspect doc).Pairwise
      (fun a b => a.page ≤ b.page) := by
  rw [parseFigures, List.enum]
  exact enumFrom_flatMap_pairwise raster minImageSize minBboxArea
    maxAspect doc 0

/-! ### The `split_attempted` life cycle (`SmartAgent.query`,
`SmartAgent.auto_split_all_figures`)

A call to the external splitter has one of three observable outcomes:
the splitter is unavailable (`is_available()` returned false), it
returned a (possibly empty) label-to-path mapping, or it raised. -/

/-- Outcome of one interaction with the subfigure splitter. -/
inductive SplitOutcome
  | unavailable
  | ok (m : List (String × String))
  | err
deriving DecidableEq, Repr

/-- The record update performed by the lazy-splitting block of
`SmartAgent.query` on the queried record; `subfigRequested` tells whether
the question named a subfigure.  The boolean reports whether
`splitter.split` was invoked. -/
def querySplitStep (s : FigRec) (subfigRequested : Bool)
    (o : SplitOutcome) : FigRec × Bool :=
  if subfigRequested && !s.splitAttempted then
    match o with
    | .unavailable => ({ s with splitAttempted := true }, false)
    | .ok m => ({ s with subfigures := m, splitAttempted := true }, true)
    | .err => ({ s with splitAttempted := true }, true)
  else if !subfigRequested && !s.splitAttempted then
    match o with
    | .unavailable => (s, false)
    | .ok m => ({ s with subfigures := m, splitAttempted := true }, true)
    | .err => ({ s with splitAttempted := true }, true)
  else (s, false)

/-- The record update performed by `auto_split_all_figures` on one
record. -/
def autoSplitStep (s : FigRec) (o : SplitOutcome) : FigRec × Bool :=
  if s.splitAttempted then (s, false)
  else
    match o with
    | .unavailable => (s, false)
    | .ok m =>
      if m ≠ [] then ({ s with subfigures := m, splitAttempted := true },
        true)
      else ({ s with splitAttempted := true }, true)
    | .err => ({ s with splitAttempted := true }, true)

/-- A consumer interaction touching one record. -/
inductive SplitOp
  | query (subfigRequested : Bool) (o : SplitOutcome)
  | autoSplit (o : SplitOutcome)

/-- Apply one interaction; the boolean reports a splitter invocation. -/
def applySplitOp (s : FigRec) : SplitOp → FigRec × Bool
  | .query b o => querySplitStep s b o
  | .autoSplit o => autoSplitStep s o

/-- Run a sequence of interactions, counting splitter invocations. -/
def runSplitOps (s : FigRec) : List SplitOp → FigRec × ℕ
  | [] => (s, 0)
  | op :: ops =>
    let p := applySplitOp s op
    let r := runSplitOps p.1 ops
    (r.1, (if p.2 then 1 else 0) + r.2)

theorem applySplitOp_frozen (s : FigRec) (op : SplitOp)
    (h : s.splitAttempted = true) : applySplitOp s op = (s, false) := by
  cases op with
  | query b o => cases o <;> simp [applySplitOp, querySplitStep, h]
  | autoSplit o => cases o <;> simp [applySplitOp, autoSplitStep, h]

theorem runSplitOps_frozen (s : FigRec) (ops : List SplitOp)
    (h : s.splitAttempted = true) : runSplitOps s ops = (s, 0) := by
  induction ops with
  | nil => rfl
  | cons op rest ih =>
    simp only [runSplitOps, applySplitOp_frozen s op h]
    rw [ih]
    simp

theorem querySplitStep_sets (s : FigRec) (o : SplitOutcome)
    (h : s.splitAttempted = false) :
    (querySplitStep s true o).1.splitAttempted = true := by
  cases o <;> simp [querySplitStep, h]

theorem applySplitOp_mono (s : FigRec) (op : SplitOp)
    (h : s.splitAttempted = true) :
    (applySplitOp s op).1.splitAttempted = true := by
  rw [applySplitOp_frozen s op h]
  exact h

/-! ### Citation extraction (`FigureReferenceExtractor`)

The ten regexes of `PATTERNS` are applied with `re.IGNORECASE` and
`re.finditer`.  Each is hand-compiled to a matcher on `List Char`; since
the character classes appearing in any one pattern (whitespace, digits,
latin letters, the punctuation classes) are pairwise disjoint, the greedy
left-to-right reading implemented here coincides with the backtracking
regex semantics.  `\s` is the ASCII whitespace class (the texts under
consideration are ASCII), `[a-z]` under IGNORECASE accepts both cases. -/

/-- One extracted reference: figure number, optional subfigure letter
(group 2 verbatim, not lowercased), and the match span (`start`/`end`;
the matched text is the input slice between them). -/
structure Ref where
  fig : ℕ
  sub : Option Char
  start : ℕ
  stop : ℕ
deriving DecidableEq, Repr

/-- Python `\s` on ASCII text. -/
def isWsChar (c : Char) : Bool :=
  c == ' ' || c == '\t' || c == '\n' || c == '\r' || c == '\x0b' ||
    c == '\x0c'

/-- Case-insensitive character comparison (IGNORECASE). -/
def matchesCI (p c : Char) : Bool := p.toLower == c.toLower

/-- The class `[a-z]` under IGNORECASE. -/
def isLatinCI (c : Char) : Bool :=
  decide ('a' ≤ c.toLower) && decide (c.toLower ≤ 'z')

/-- The class `\d` on ASCII text. -/
def isDigitChar (c : Char) : Bool := decide ('0' ≤ c) && decide (c ≤ '9')

/-- Match a literal case-insensitively, returning the rest. -/
def litCI : List Char → List Char → Option (List Char)
  | [], s => some s
  | _ :: _, [] => none
  | p :: ps, c :: cs => if matchesCI p c then litCI ps cs else none

/-- Greedy optional literal character (`e?` and the like). -/
def optCharCI (p : Char) : List Char → List Char
  | [] => []
  | c :: cs => if matchesCI p c then cs else c :: cs

/-- Greedy optional character class (`[\.\(]?` and the like). -/
def optCharIn (cls : List Char) : List Char → List Char
  | [] => []
  | c :: cs => if cls.contains c then cs else c :: cs

/-- Mandatory character class (`[:\.]`, `[\)\]]`, ...). -/
def oneCharIn (cls : List Char) : List Char → Option (List Char)
  | [] => none
  | c :: cs => if cls.contains c then some cs else none

/-- Greedy `\s*`. -/
def ws0 : List Char → List Char := List.dropWhile isWsChar

/-- Greedy `\s+`. -/
def ws1 : List Char → Option (List Char)
  | [] => none
  | c :: cs => if isWsChar c then some (ws0 cs) else none

/-- Greedy `(\d+)` with its numeric value (`int(...)`). -/
def digits1 (s : List Char) : Option (ℕ × List Char) :=
  let ds := s.takeWhile isDigitChar
  if ds = [] then none
  else some (ds.foldl (fun n c => 10 * n + (c.toNat - 48)) 0,
    s.dropWhile isDigitChar)

/-- One letter capture `([a-z])` under IGNORECASE. -/
def letterCI : List Char → Option (Char × List Char)
  | [] => none
  | c :: cs => if isLatinCI c then some (c, cs) else none

/-- The negative lookahead `(?!\s*[a-z])`: true when it succeeds, i.e.
after the whitespace run there is no latin letter. -/
def lookNoLetter (s : List Char) : Bool :=
  match ws0 s with
  | [] => true
  | c :: _ => !(isLatinCI c)

/-- The group `(\d+)(?!\s*[a-z])`: the greedy digit run is tried first;
when the lookahead fails after it, the regex backtracks one digit (the
lookahead then sees a digit, which is neither whitespace nor a letter, so
it succeeds; shorter captures are never reached because backtracking
prefers longer ones).  With a single digit followed by a letter the whole
group fails. -/
def digitsNegLook (s : List Char) : Option (ℕ × List Char) :=
  let ds := s.takeWhile isDigitChar
  let rest := s.dropWhile isDigitChar
  if ds = [] then none
  else if lookNoLetter rest then
    some (ds.foldl (fun n c => 10 * n + (c.toNat - 48)) 0, rest)
  else if 2 ≤ ds.length then
    some (ds.dropLast.foldl (fun n c => 10 * n + (c.toNat - 48)) 0,
      ds.drop (ds.length - 1) ++ rest)
  else none

/-- Regex 1: `[Ff]igure?\s+(\d+)\s*[\.\(]?\s*([a-z])\s*[\)]?`. -/
def pFigureSub (s : List Char) : Option (ℕ × Option Char × List Char) := do
  let s1 ← litCI ['f', 'i', 'g', 'u', 'r'] s
  let s2 := optCharCI 'e' s1
  let s3 ← ws1 s2
  let (n, s4) ← digits1 s3
  let s5 := ws0 s4
  let s6 := optCharIn ['.', '('] s5
  let s7 := ws0 s6
  let (c, s8) ← letterCI s7
  let s9 := ws0 s8
  let s10 := optCharIn [')'] s9
  some (n, some c, s10)

/-- Regex 2: `[Ff]ig\.?\s+(\d+)\s*[\.\(]?\s*([a-z])\s*[\)]?`. -/
def pFigSub (s : List Char) : Option (ℕ × Option Char × List Char) := do
  let s1 ← litCI ['f', 'i', 'g'] s
  let s2 := optCharIn ['.'] s1
  let s3 ← ws1 s2
  let (n, s4) ← digits1 s3
  let s5 := ws0 s4
  let s6 := optCharIn ['.', '('] s5
  let s7 := ws0 s6
  let (c, s8) ← letterCI s7
  let s9 := ws0 s8
  let s10 := optCharIn [')'] s9
  some (n, some c, s10)

/-- Regex 3: `图\s*(\d+)\s*[-\.\(]?\s*([a-z])\s*[\)]?`. -/
def pTuSub (s : List Char) : Option (ℕ × Option Char × List Char) := do
  let s1 ← litCI ['图'] s
  let s2 := ws0 s1
  let (n, s3) ← digits1 s2
  let s4 := ws0 s3
  let s5 := optCharIn ['-', '.', '('] s4
  let s6 := ws0 s5
  let (c, s7) ← letterCI s6
  let s8 := ws0 s7
  let s9 := optCharIn [')'] s8
  some (n, some c, s9)

/-- Common tail of regex 4 after one of the context words. -/
def pCtxTail (s : List Char) : Option (ℕ × Option Char × List Char) := do
  let s1 ← ws1 s
  let s2 ← litCI ['f', 'i', 'g', 'u', 'r'] s1
  let s3 := optCharCI 'e' s2
  let s4 ← ws1 s3
  let (n, s5) ← digitsNegLook s4
  some (n, none, s5)

/-- Regex 4: `(?:see|in|as|from|of)\s+[Ff]igure?\s+(\d+)(?!\s*[a-z])`. -/
def pCtx (s : List Char) : Option (ℕ × Option Char × List Char) :=
  ((litCI ['s', 'e', 'e'] s).bind pCtxTail) <|>
  ((litCI ['i', 'n'] s).bind pCtxTail) <|>
  ((litCI ['a', 's'] s).bind pCtxTail) <|>
  ((litCI ['f', 'r', 'o', 'm'] s).bind pCtxTail) <|>
  ((litCI ['o', 'f'] s).bind pCtxTail)

/-- Regex 5: `[Ff]igure?\s+(\d+)(?!\s*[a-z])`. -/
def pFigureBare (s : List Char) : Option (ℕ × Option Char × List Char) := do
  let s1 ← litCI ['f', 'i', 'g', 'u', 'r'] s
  let s2 := optCharCI 'e' s1
  let s3 ← ws1 s2
  let (n, s4) ← digitsNegLook s3
  some (n, none, s4)

/-- Regex 6: `[Ff]igure?\s+(\d+)\s*[:\.]\s*`. -/
def pFigureColon (s : List Char) : Option (ℕ × Option Char × List Char) := do
  let s1 ← litCI ['f', 'i', 'g', 'u', 'r'] s
  let s2 := optCharCI 'e' s1
  let s3 ← ws1 s2
  let (n, s4) ← digits1 s3
  let s5 := ws0 s4
  let s6 ← oneCharIn [':', '.'] s5
  some (n, none, ws0 s6)

/-- Regex 7: `FIGURE\s+(\d+)(?!\s*[a-z])` (IGNORECASE makes the case of
the literal irrelevant). -/
def pFigureCaps (s : List Char) : Option (ℕ × Option Char × List Char) := do
  let s1 ← litCI ['f', 'i', 'g', 'u', 'r', 'e'] s
  let s2 ← ws1 s1
  let (n, s3) ← digitsNegLook s2
  some (n, none, s3)

/-- Regex 8: `[\(\[]Figure\s+(\d+)[\)\]]`. -/
def pBracketed (s : List Char) : Option (ℕ × Option Char × List Char) := do
  let s1 ← oneCharIn ['(', '['] s
  let s2 ← litCI ['f', 'i', 'g', 'u', 'r', 'e'] s1
  let s3 ← ws1 s2
  let (n, s4) ← digits1 s3
  let s5 ← oneCharIn [')', ']'] s4
  some (n, none, s5)

/-- Regex 9: `[Ff]ig\.?\s+(\d+)(?!\s*[a-z])`. -/
def pFigBare (s : List Char) : Option (ℕ × Option Char × List Char) := do
  let s1 ← litCI ['f', 'i', 'g'] s
  let s2 := optCharIn ['.'] s1
  let s3 ← ws1 s2
  let (n, s4) ← digitsNegLook s3
  some (n, none, s4)

/-- Regex 10: `图\s*(\d+)(?!\s*[a-z])`. -/
def pTuBare (s : List Char) : Option (ℕ × Option Char × List Char) := do
  let s1 ← litCI ['图'] s
  let s2 := ws0 s1
  let (n, s3) ← digitsNegLook s2
  some (n, none, s3)

/-- `re.finditer` for one pattern: scan left to right, after a match of
length `len` continue at its end (our patterns never match the empty
string; a hypothetical length-≤-1 match advances one position, exactly
the scanner's behavior for `len = 1`).  The fuel is the suffix length,
which the recursion maintains exactly. -/
def findIterF (m : List Char → Option (ℕ × Option Char × List Char)) :
    ℕ → List Char → ℕ → List Ref
  | 0, _, _ => []
  | _ + 1, [], _ => []
  | fuel + 1, c :: cs, pos =>
    match m (c :: cs) with
    | none => findIterF m fuel cs (pos + 1)
    | some (n, sub, rest) =>
      let len := (c :: cs).length - rest.length
      if len ≤ 1 then
        ⟨n, sub, pos, pos + len⟩ :: findIterF m fuel cs (pos + 1)
      else
        ⟨n, sub, pos, pos + len⟩ ::
          findIterF m fuel (cs.drop (len - 1)) (pos + len)

/-- All matches of one pattern with their positions. -/
def findIter (m : List Char → Option (ℕ × Option Char × List Char))
    (s : List Char) : List Ref :=
  findIterF m s.length s 0

/-- The `PATTERNS` table in source order. -/
def PATTERNS : List (List Char → Option (ℕ × Option Char × List Char)) :=
  [pFigureSub, pFigSub, pTuSub, pCtx, pFigureBare, pFigureColon,
    pFigureCaps, pBracketed, pFigBare, pTuBare]

/-- The reference list collected pattern by pattern (the nested
`for pattern ... for match ...` loops of `extract_references`). -/
def allRefs (text : List Char) : List Ref :=
  PATTERNS.flatMap (fun p => findIter p text)

/-- Comparator of `sorted(references, key=lambda x: x["start"])`. -/
def refLE (a b : Ref) : Bool := decide (a.start ≤ b.start)

/-- The dedup loop of `extract_references`: keep the first reference for
each `(figure, subfigure)` key. -/
def dedupRefs : List Ref → List (ℕ × Option Char) → List Ref
  | [], _ => []
  | r :: rs, seen =>
    if (r.fig, r.sub) ∈ seen then dedupRefs rs seen
    else r :: dedupRefs rs ((r.fig, r.sub) :: seen)

/-- Embedding of `FigureReferenceExtractor.extract_references`. -/
def extractReferences (text : List Char) : List Ref :=
  dedupRefs (stableSort refLE (allRefs text)) []

/-- Convenience wrapper on `String`. -/
def extractRefsStr (s : String) : List Ref := extractReferences s.data

/-! ### Fuel twins

The kernel cannot reduce well-founded recursion, so concrete runs of the
merge loop are evaluated through structurally recursive twins, proved
equal to the loop whenever the fuel is at least the list length (which
bounds the number of passes, since a changing pass strictly shrinks the
list). -/

/-- Fuel twin of `onePass`. -/
def onePassF (t : ℚ) : ℕ → List Rect → List Rect × Bool
  | _, [] => ([], false)
  | 0, l => (l, false)
  | f + 1, r :: rs =>
    let a := absorb t r rs
    let p := onePassF t f a.2.1
    (a.1 :: p.1, a.2.2 || p.2)

theorem onePass_eq_fuel (t : ℚ) (f : ℕ) (l : List Rect)
    (hf : l.length ≤ f) : onePass t l = onePassF t f l := by
  induction f generalizing l with
  | zero =>
    cases l with
    | nil => simp [onePass, onePassF]
    | cons r rs => simp at hf
  | succ f ih =>
    cases l with
    | nil => simp [onePass, onePassF]
    | cons r rs =>
      rw [onePass]
      show ((absorb t r rs).1 :: (onePass t (absorb t r rs).2.1).1,
        (absorb t r rs).2.2 || (onePass t (absorb t r rs).2.1).2) =
        onePassF t (f + 1) (r :: rs)
      rw [ih (absorb t r rs).2.1 (le_trans (absorb_kept_length t r rs)
        (Nat.le_of_succ_le_succ hf))]
      rfl

/-- Fuel twin of `mergeLoop`. -/
def mergeLoopF (t : ℚ) : ℕ → List Rect → List Rect
  | 0, l => l
  | f + 1, l =>
    let p := onePassF t l.length l
    if p.2 then mergeLoopF t f p.1 else p.1

theorem mergeLoop_eq_fuel (t : ℚ) (f : ℕ) (l : List Rect)
    (hf : l.length ≤ f) : mergeLoop t l = mergeLoopF t f l := by
  induction f generalizing l with
  | zero =>
    have hl : l = [] := List.length_eq_zero.mp (Nat.le_zero.mp hf)
    subst hl
    rw [mergeLoop]
    simp [onePass, mergeLoopF]
  | succ f ih =>
    rw [mergeLoop]
    show (if h : (onePass t l).2 = true then mergeLoop t (onePass t l).1
      else (onePass t l).1) = mergeLoopF t (f + 1) l
    rw [onePass_eq_fuel t l.length l le_rfl]
    by_cases hp : (onePassF t l.length l).2 = true
    · rw [dif_pos hp]
      show mergeLoop t (onePassF t l.length l).1 = mergeLoopF t (f + 1) l
      have hlt : (onePassF t l.length l).1.length < l.length := by
        have := onePass_progress t l (by
          rw [onePass_eq_fuel t l.length l le_rfl]; exact hp)
        rw [onePass_eq_fuel t l.length l le_rfl] at this
        exact this
      rw [ih _ (by omega)]
      show mergeLoopF t f (onePassF t l.length l).1 = mergeLoopF t (f + 1) l
      rw [show mergeLoopF t (f + 1) l =
        (if (onePassF t l.length l).2 then
          mergeLoopF t f (onePassF t l.length l).1
        else (onePassF t l.length l).1) from rfl]
      rw [if_pos hp]
    · rw [dif_neg hp]
      rw [show mergeLoopF t (f + 1) l =
        (if (onePassF t l.length l).2 then
          mergeLoopF t f (onePassF t l.length l).1
        else (onePassF t l.length l).1) from rfl]
      rw [if_neg hp]

/-- Evaluation form of `mergeNearby`. -/
theorem mergeNearby_eval (t : ℚ) (l : List Rect) :
    mergeNearby t l = if l = [] then [] else mergeLoopF t l.length l := by
  rw [mergeNearby]
  by_cases h : l = []
  · simp [h]
  · rw [if_neg h, if_neg h]
    exact mergeLoop_eq_fuel t l.length l le_rfl

/-- Fuel twin of `onePassM`. -/
def onePassMF (t : ℚ) : ℕ → List Cluster → List Cluster × Bool
  | _, [] => ([], false)
  | 0, l => (l, false)
  | f + 1, c :: cs =>
    let a := absorbM t c cs
    let p := onePassMF t f a.2.1
    (a.1 :: p.1, a.2.2 || p.2)

theorem onePassM_eq_fuel (t : ℚ) (f : ℕ) (l : List Cluster)
    (hf : l.length ≤ f) : onePassM t l = onePassMF t f l := by
  induction f generalizing l with
  | zero =>
    cases l with
    | nil => simp [onePassM, onePassMF]
    | cons c cs => simp at hf
  | succ f ih =>
    cases l with
    | nil => simp [onePassM, onePassMF]
    | cons c cs =>
      rw [onePassM]
      show ((absorbM t c cs).1 :: (onePassM t (absorbM t c cs).2.1).1,
        (absorbM t c cs).2.2 || (onePassM t (absorbM t c cs).2.1).2) =
        onePassMF t (f + 1) (c :: cs)
      rw [ih (absorbM t c cs).2.1 (le_trans (absorbM_kept_length t c cs)
        (Nat.le_of_succ_le_succ hf))]
      rfl

/-- Fuel twin of `mergeLoopM`. -/
def mergeLoopMF (t : ℚ) : ℕ → List Cluster → List Cluster
  | 0, l => l
  | f + 1, l =>
    let p := onePassMF t l.length l
    if p.2 then mergeLoopMF t f p.1 else p.1

theorem mergeLoopM_eq_fuel (t : ℚ) (f : ℕ) (l : List Cluster)
    (hf : l.length ≤ f) : mergeLoopM t l = mergeLoopMF t f l := by
  induction f generalizing l with
  | zero =>
    have hl : l = [] := List.length_eq_zero.mp (Nat.le_zero.mp hf)
    subst hl
    rw [mergeLoopM]
    simp [onePassM, mergeLoopMF]
  | succ f ih =>
    rw [mergeLoopM]
    show (if h : (onePassM t l).2 = true then mergeLoopM t (onePassM t l).1
      else (onePassM t l).1) = mergeLoopMF t (f + 1) l
    rw [onePassM_eq_fuel t l.length l le_rfl]
    by_cases hp : (onePassMF t l.length l).2 = true
    · rw [dif_pos hp]
      show mergeLoopM t (onePassMF t l.length l).1 = mergeLoopMF t (f + 1) l
      have hlt : (onePassMF t l.length l).1.length < l.length := by
        have := onePassM_progress t l (by
          rw [onePassM_eq_fuel t l.length l le_rfl]; exact hp)
        rw [onePassM_eq_fuel t l.length l le_rfl] at this
        exact this
      rw [ih _ (by omega)]
      show mergeLoopMF t f (onePassMF t l.length l).1 = mergeLoopMF t (f + 1) l
      rw [show mergeLoopMF t (f + 1) l =
        (if (onePassMF t l.length l).2 then
          mergeLoopMF t f (onePassMF t l.length l).1
        else (onePassMF t l.length l).1) from rfl]
      rw [if_pos hp]
    · rw [dif_neg hp]
      rw [show mergeLoopMF t (f + 1) l =
        (if (onePassMF t l.length l).2 then
          mergeLoopMF t f (onePassMF t l.length l).1
        else (onePassMF t l.length l).1) from rfl]
      rw [if_neg hp]

/-- Evaluation form of `mergeM`. -/
theorem mergeM_eval (t : ℚ) (l : List Rect) :
    mergeM t l = if l = [] then []
      else mergeLoopMF t (initClusters l).length (initClusters l) := by
  rw [mergeM]
  by_cases h : l = []
  · simp [h]
  · rw [if_neg h, if_neg h]
    exact mergeLoopM_eq_fuel t (initClusters l).length (initClusters l)
      le_rfl

/-- The dedup key of a reference. -/
def refKey (r : Ref) : ℕ × Option Char := (r.fig, r.sub)

theorem dedupRefs_sublist (l : List Ref) (seen : List (ℕ × Option Char)) :
    (dedupRefs l seen).Sublist l := by
  induction l generalizing seen with
  | nil => simp [dedupRefs]
  | cons r rs ih =>
    by_cases h : (r.fig, r.sub) ∈ seen
    · rw [show dedupRefs (r :: rs) seen = dedupRefs rs seen by
        simp [dedupRefs, h]]
      exact (ih seen).cons r
    · rw [show dedupRefs (r :: rs) seen =
        r :: dedupRefs rs ((r.fig, r.sub) :: seen) by simp [dedupRefs, h]]
      exact (ih _).cons₂ r

theorem dedupRefs_key_not_seen {l : List Ref} {seen : List (ℕ × Option Char)}
    {r : Ref} (h : r ∈ dedupRefs l seen) : refKey r ∉ seen := by
  induction l generalizing seen with
  | nil => simp [dedupRefs] at h
  | cons x xs ih =>
    by_cases hx : (x.fig, x.sub) ∈ seen
    · rw [show dedupRefs (x :: xs) seen = dedupRefs xs seen by
        simp [dedupRefs, hx]] at h
      exact ih h
    · rw [show dedupRefs (x :: xs) seen =
        x :: dedupRefs xs ((x.fig, x.sub) :: seen) by
          simp [dedupRefs, hx]] at h
      rcases List.mem_cons.mp h with rfl | h2
      · exact hx
      · have := ih h2
        intro hbad
        exact this (List.mem_cons_of_mem _ hbad)

theorem dedupRefs_keys_nodup (l : List Ref)
    (seen : List (ℕ × Option Char)) :
    ((dedupRefs l seen).map refKey).Nodup := by
  induction l generalizing seen with
  | nil => simp [dedupRefs]
  | cons x xs ih =>
    by_cases hx : (x.fig, x.sub) ∈ seen
    · rw [show dedupRefs (x :: xs) seen = dedupRefs xs seen by
        simp [dedupRefs, hx]]
      exact ih seen
    · rw [show dedupRefs (x :: xs) seen =
        x :: dedupRefs xs ((x.fig, x.sub) :: seen) by simp [dedupRefs, hx]]
      rw [List.map_cons]
      refine List.nodup_cons.mpr ⟨?_, ih _⟩
      intro hbad
      obtain ⟨r, hr, hkey⟩ := List.mem_map.mp hbad
      have := dedupRefs_key_not_seen hr
      rw [hkey] at this
      exact this (List.mem_cons_self _ _)

theorem dedupRefs_earliest (l : List Ref) (seen : List (ℕ × Option Char))
    (hsort : l.Pairwise (fun a b => a.start ≤ b.start)) :
    ∀ r ∈ dedupRefs l seen, ∀ r2 ∈ l, refKey r2 = refKey r →
      r.start ≤ r2.start := by
  induction l generalizing seen with
  | nil => simp [dedupRefs]
  | cons x xs ih =>
    rcases List.pairwise_cons.mp hsort with ⟨hx1, hxs⟩
    by_cases hx : (x.fig, x.sub) ∈ seen
    · rw [show dedupRefs (x :: xs) seen = dedupRefs xs seen by
        simp [dedupRefs, hx]]
      intro r hr r2 hr2 hkey
      rcases List.mem_cons.mp hr2 with rfl | h2
      · exfalso
        have := dedupRefs_key_not_seen hr
        rw [← hkey] at this
        exact this hx
      · exact ih seen hxs r hr r2 h2 hkey
    · rw [show dedupRefs (x :: xs) seen =
        x :: dedupRefs xs ((x.fig, x.sub) :: seen) by simp [dedupRefs, hx]]
      intro r hr r2 hr2 hkey
      rcases List.mem_cons.mp hr with rfl | hr3
      · rcases List.mem_cons.mp hr2 with rfl | h2
        · exact le_refl _
        · exact hx1 r2 h2
      · rcases List.mem_cons.mp hr2 with rfl | h2
        · exfalso
          have := dedupRefs_key_not_seen hr3
          rw [← hkey] at this
          exact this (List.mem_cons_self _ _)
        · exact ih _ hxs r hr3 r2 h2 hkey

theorem refLE_total (a b : Ref) : refLE a b = false → refLE b a = true := by
  simp only [refLE, decide_eq_false_iff_not, decide_eq_true_eq, not_le]
  exact le_of_lt

theorem refLE_trans (a b c : Ref) : refLE a b = true → refLE b c = true →
    refLE a c = true := by
  simp only [refLE, decide_eq_true_eq]
  exact le_trans

/-- The returned citations are ordered by match position. -/
theorem extractReferences_sorted (text : List Char) :
    (extractReferences text).Pairwise (fun a b => a.start ≤ b.start) := by
  have hs := stableSort_pairwise refLE refLE_total refLE_trans
    (allRefs text)
  have hsub := dedupRefs_sublist (stableSort refLE (allRefs text)) []
  exact List.Pairwise.sublist hsub
    (hs.imp (fun h => by simpa [refLE] using h))

/-- The returned citations carry pairwise distinct
`(figure, subfigure)` keys. -/
theorem extractReferences_keys_nodup (text : List Char) :
    ((extractReferences text).map refKey).Nodup :=
  dedupRefs_keys_nodup _ []

/-- Each returned citation is the earliest collected occurrence of its
key. -/
theorem extractReferences_earliest (text : List Char) :
    ∀ r ∈ extractReferences text, ∀ r2 ∈ allRefs text,
      refKey r2 = refKey r → r.start ≤ r2.start := by
  intro r hr r2 hr2 hkey
  have hsort : (stableSort refLE (allRefs text)).Pairwise
      (fun a b => a.start ≤ b.start) :=
    (stableSort_pairwise refLE refLE_total refLE_trans (allRefs text)).imp
      (fun h => by simpa [refLE] using h)
  exact dedupRefs_earliest _ [] hsort r hr r2
    (((stableSort_perm refLE (allRefs text)).symm.mem_iff).mp hr2) hkey

/-! ### Claim theorems -/

/-- C1: for the matcher run on citations `{1 ↦ [3], 2 ↦ [8, 9]}` with
images only on pages 2, 3 and 10, figure 1's candidate pool is the images
on pages 1–5 (here the page-2 and page-3 images) and figure 1 is bound to
the page-3 image; figure 2's pool is the images on pages 6–11 (here only
the page-10 image) and figure 2 is bound to the page-10 image.  In
general the search window around a first mention page `fm` is exactly the
interval `[fm − 2, fm + 2]` clipped to positive page numbers. -/
theorem claim_C1_window_and_scenario :
    (∀ fm p : ℤ, p ∈ searchWindow fm ↔
      (fm - 2 ≤ p ∧ p ≤ fm + 2 ∧ 0 < p)) ∧
    searchWindow (minPages [3]) = [1, 2, 3, 4, 5] ∧
    searchWindow (minPages [8, 9]) = [6, 7, 8, 9, 10] ∧
    candidatePool ([⟨2, 10000⟩, ⟨3, 80000⟩, ⟨10, 90000⟩] : List Image).enum
      [] (searchWindow (minPages [3])) =
      [(0, ⟨2, 10000⟩), (1, ⟨3, 80000⟩)] ∧
    candidatePool ([⟨2, 10000⟩, ⟨3, 80000⟩, ⟨10, 90000⟩] : List Image).enum
      [1] (searchWindow (minPages [8, 9])) = [(2, ⟨10, 90000⟩)] ∧
    List.lookup 1 (matchFigures [⟨2, 10000⟩, ⟨3, 80000⟩, ⟨10, 90000⟩]
      [(1, [3]), (2, [8, 9])]) = some (some ⟨1, 3, [], false⟩) ∧
    List.lookup 2 (matchFigures [⟨2, 10000⟩, ⟨3, 80000⟩, ⟨10, 90000⟩]
      [(1, [3]), (2, [8, 9])]) = some (some ⟨2, 10, [], false⟩) := by
  refine ⟨?_, by decide, by decide, by decide, by decide, by decide,
    by decide⟩
  intro fm p
  constructor
  · intro h
    rw [searchWindow] at h
    obtain ⟨hmem, hp⟩ := List.mem_filter.mp h
    obtain ⟨o, ho, heq⟩ := List.mem_map.mp hmem
    rw [List.mem_range] at ho
    have hp2 : (0 : ℤ) < p := by simpa using hp
    refine ⟨?_, ?_, hp2⟩ <;> omega
  · rintro ⟨h1, h2, h3⟩
    rw [searchWindow]
    refine List.mem_filter.mpr ⟨?_, by simpa using h3⟩
    refine List.mem_map.mpr ⟨(p - (fm - 2)).toNat, ?_, by omega⟩
    rw [List.mem_range]
    omega

/-- C2: after the per-citation primary pass and the fallback pass for
large unreferenced images, no image id (equivalently, no saved image
path, which is determined by the id) is bound by more than one entry of
the figure map. -/
theorem claim_C2_matcher_exclusivity (raw : List Image)
    (figPages : List (ℕ × List ℤ)) :
    (boundIds (matchFigures raw figPages)).Nodup :=
  matchFigures_nodup raw figPages

/-- C3 counterexample: the text `"Figure 3a, Figure 3:"` contains the
substring `"Figure 3a"`, yet `extract_references` returns two citations
for figure 3 — the subfigure citation `(3, a)` and additionally the bare
`(3, none)` citation produced by the other figure-3 text — refuting the
claim for this input. -/
theorem claim_C3_counterexample :
    "Figure 3a".data.IsInfix "Figure 3a, Figure 3:".data ∧
    extractRefsStr "Figure 3a, Figure 3:" =
      [⟨3, some 'a', 0, 9⟩, ⟨3, none, 11, 19⟩] := by
  refine ⟨⟨[], ", Figure 3:".data, by decide⟩, by decide⟩

/-- C3 amended: on the text `"Figure 3a and Figure 3a"` (which contains
`"Figure 3a"` twice and no other figure text) exactly one citation,
`(3, a)`, is returned; and for every input text the returned list has at
most one citation per `(figureNumber, subfigureLabel)` key, is ordered by
match position, and keeps the earliest collected occurrence of each key.
Other figure-3 text in the same input may add further figure-3 citations,
including a bare `(3, none)`. -/
theorem claim_C3_dedup_amended (text : List Char) :
    extractRefsStr "Figure 3a and Figure 3a" = [⟨3, some 'a', 0, 10⟩] ∧
    ((extractReferences text).map refKey).Nodup ∧
    (extractReferences text).Pairwise (fun a b => a.start ≤ b.start) ∧
    (∀ r ∈ extractReferences text, ∀ r2 ∈ allRefs text,
      refKey r2 = refKey r → r.start ≤ r2.start) :=
  ⟨by decide, extractReferences_keys_nodup text,
    extractReferences_sorted text, extractReferences_earliest text⟩

/-- C3 witness for the amended claim at a concrete input. -/
theorem claim_C3_dedup_amended_witness :
    (⟨3, some 'a', 0, 10⟩ : Ref).start ≤
      (⟨3, some 'a', 14, 23⟩ : Ref).start :=
  (claim_C3_dedup_amended "Figure 3a and Figure 3a".data).2.2.2
    ⟨3, some 'a', 0, 10⟩ (by decide) ⟨3, some 'a', 14, 23⟩ (by decide)
    (by decide)

/-- C4: for every rectangle list and threshold, the merge output contains
no two rectangles that pass the nearby test (it is a fixed point of the
merge relation), and consequently merging is idempotent. -/
theorem claim_C4_merge_fixed_point (t : ℚ) (R : List Rect) :
    (mergeNearby t R).Pairwise (fun a b => isNearby a b t = false) ∧
    mergeNearby t (mergeNearby t R) = mergeNearby t R :=
  ⟨mergeNearby_pairwise t R, mergeNearby_idem t R⟩

/-- C5: the bounding-box merge is monotone in the threshold: a strictly
larger threshold never yields more output rectangles. -/
theorem claim_C5_merge_threshold_mono (t1 t2 : ℚ) (h : t1 < t2)
    (R : List Rect) :
    (mergeNearby t2 R).length ≤ (mergeNearby t1 R).length :=
  mergeNearby_length_mono t1 t2 (le_of_lt h) R

/-- C5 witness at a concrete threshold pair and rectangle list. -/
theorem claim_C5_merge_threshold_mono_witness :
    (1 : ℚ) < 2 ∧ (mergeNearby 2 [⟨0, 0, 1, 1⟩]).length ≤
      (mergeNearby 1 [⟨0, 0, 1, 1⟩]).length :=
  ⟨one_lt_two, claim_C5_merge_threshold_mono 1 2 one_lt_two [⟨0, 0, 1, 1⟩]⟩

/-- C6 counterexample: at threshold 2 the three collinear unit squares
merge into a single region by chained absorption, yet its first and last
constituents are farther apart than the threshold — refuting the claim
that every pairwise gap between a region's constituents is at most the
threshold. -/
theorem claim_C6_counterexample :
    mergeM 2 [⟨0, 0, 1, 1⟩, ⟨3, 0, 4, 1⟩, ⟨6, 0, 7, 1⟩] =
      [(⟨0, 0, 7, 1⟩,
        [(0, ⟨0, 0, 1, 1⟩), (1, ⟨3, 0, 4, 1⟩), (2, ⟨6, 0, 7, 1⟩)])] ∧
    isNearby ⟨0, 0, 1, 1⟩ ⟨6, 0, 7, 1⟩ 2 = false := by
  constructor
  · rw [mergeM_eval, if_neg (by simp)]
    norm_num [initClusters, mergeLoopMF, onePassMF, absorbM, isNearby,
      rUnion, List.enum, List.enumFrom]
  · norm_num [isNearby]

/-- C6 amended: every merged region's bounds is the minimal rectangle
covering its constituents (each absorbed input rectangle is contained in
it, and any rectangle containing all constituents contains the bounds),
and the constituents are connected under iterated merging — each region
arises by repeatedly gluing subgroups whose bounding boxes pass the
nearby test — but two individual constituents may be farther apart than
the threshold. -/
theorem claim_C6_region_invariant_amended (t : ℚ) (l : List Rect)
    (c : Cluster) (hc : c ∈ mergeM t l) :
    (∀ m ∈ c.2, m.2.inside c.1) ∧
    (∀ R : Rect, (∀ m ∈ c.2, m.2.inside R) → c.1.inside R) ∧
    Conn t c.2 := by
  obtain ⟨hne, hbb, hconn⟩ := mergeM_good t l c hc
  refine ⟨?_, ?_, hconn⟩
  · intro m hm
    rw [hbb]
    exact mem_inside_bigBox hm
  · intro R hR
    rw [hbb]
    exact bigBox_inside hne hR

/-- Evaluation of the demonstration merge used by the C6 witness. -/
theorem demo_mergeM_eval :
    mergeM 2 [⟨0, 0, 1, 1⟩, ⟨3, 0, 4, 1⟩, ⟨6, 0, 7, 1⟩] =
      [(⟨0, 0, 7, 1⟩,
        [(0, ⟨0, 0, 1, 1⟩), (1, ⟨3, 0, 4, 1⟩), (2, ⟨6, 0, 7, 1⟩)])] := by
  rw [mergeM_eval, if_neg (by simp)]
  norm_num [initClusters, mergeLoopMF, onePassMF, absorbM, isNearby,
    rUnion, List.enum, List.enumFrom]

/-- C6 witness for the amended claim at a concrete merge run. -/
theorem claim_C6_region_invariant_amended_witness :
    ((0, ⟨0, 0, 1, 1⟩) : IRect).2.inside (⟨0, 0, 7, 1⟩ : Rect) ∧
    Conn 2 [(0, ⟨0, 0, 1, 1⟩), (1, ⟨3, 0, 4, 1⟩), (2, ⟨6, 0, 7, 1⟩)] := by
  have h := claim_C6_region_invariant_amended 2
    [⟨0, 0, 1, 1⟩, ⟨3, 0, 4, 1⟩, ⟨6, 0, 7, 1⟩]
    (⟨0, 0, 7, 1⟩,
      [(0, ⟨0, 0, 1, 1⟩), (1, ⟨3, 0, 4, 1⟩), (2, ⟨6, 0, 7, 1⟩)])
    (by rw [demo_mergeM_eval]; exact List.mem_singleton_self _)
  exact ⟨h.1 _ (List.mem_cons_self _ _), h.2.2⟩

/-- C7 counterexample: a page whose embedded objects are reported
right-rectangle first produces figure ids in that order — id 0 lies
strictly to the right of id 1 in the same horizontal band of the same
page — refuting left-to-right assignment within a page. -/
theorem claim_C7_counterexample :
    parseFigures (fun _ _ => 999999) 20000 5000 8
      [⟨1000, 1000, [⟨300, 0, 400, 100⟩, ⟨0, 0, 100, 100⟩], []⟩] =
      [⟨1, 0, ⟨300, 0, 400, 100⟩, 999999⟩,
        ⟨1, 1, ⟨0, 0, 100, 100⟩, 999999⟩] ∧
    ¬((⟨300, 0, 400, 100⟩ : Rect).x0 ≤ (⟨0, 0, 100, 100⟩ : Rect).x0) := by
  constructor
  · have hm : mergeNearby 80 [⟨300, 0, 400, 100⟩, ⟨0, 0, 100, 100⟩] =
        [(⟨300, 0, 400, 100⟩ : Rect), ⟨0, 0, 100, 100⟩] := by
      rw [mergeNearby_eval, if_neg (by simp)]
      norm_num [mergeLoopF, onePassF, absorb, isNearby, rUnion]
    have h1 : extractByRegionCrop (fun _ _ => 999999) 20000 5000 8
        ⟨1000, 1000, [⟨300, 0, 400, 100⟩, ⟨0, 0, 100, 100⟩], []⟩ 1 =
        [⟨1, 0, ⟨300, 0, 400, 100⟩, 999999⟩,
          ⟨1, 1, ⟨0, 0, 100, 100⟩, 999999⟩] := by
      rw [extractByRegionCrop]
      rw [show (⟨1000, 1000, [⟨300, 0, 400, 100⟩, ⟨0, 0, 100, 100⟩],
        []⟩ : PageData).cropRects =
        [(⟨300, 0, 400, 100⟩ : Rect), ⟨0, 0, 100, 100⟩] from rfl]
      rw [hm]
      norm_num [area, aspectRatio, expandClip, List.enum, List.enumFrom,
        List.filterMap_cons]
    show parsePage (fun _ _ => 999999) 20000 5000 8
        ⟨1000, 1000, [⟨300, 0, 400, 100⟩, ⟨0, 0, 100, 100⟩], []⟩ 1 ++
        [] = _
    rw [parsePage, h1]
    simp
  · norm_num

/-- C7 amended: every figure receives the dense id equal to its position
(ids are `0, 1, 2, …` with no gaps) and ids follow page order; within a
page, figures appear in the order the extraction produced them (the
embedded-object order after merging), which need not be geometric. -/
theorem claim_C7_dense_ids_amended (raster : ℤ → Rect → ℕ)
    (minImageSize : ℕ) (minBboxArea maxAspect : ℚ) (doc : List PageData) :
    (allImagesOf raster minImageSize minBboxArea maxAspect doc).map
      Prod.fst = List.range (parseFigures raster minImageSize minBboxArea
        maxAspect doc).length ∧
    (allImagesOf raster minImageSize minBboxArea maxAspect doc).Pairwise
      (fun a b => a.2.page ≤ b.2.page) := by
  constructor
  · exact List.enum_map_fst _
  · have hp := parseFigures_pages_mono raster minImageSize minBboxArea
      maxAspect doc
    have he : (allImagesOf raster minImageSize minBboxArea maxAspect
        doc).map Prod.snd = parseFigures raster minImageSize minBboxArea
        maxAspect doc := List.enum_map_snd _
    have := List.pairwise_map.mp (he ▸ hp :
      ((allImagesOf raster minImageSize minBboxArea maxAspect doc).map
        Prod.snd).Pairwise (fun a b => a.page ≤ b.page))
    exact this

/-- C8: once `split_attempted` is true the record is frozen — no
interaction mutates it and the splitter is never invoked again (so the
flag transitions at most once and is never reset) — and a query that
requests subfigure detail on an unattempted record sets the flag
regardless of the splitter outcome (results, empty result, exception, or
unavailability). -/
theorem claim_C8_split_attempted_life_cycle (s : FigRec) :
    (∀ ops : List SplitOp, s.splitAttempted = true →
      runSplitOps s ops = (s, 0)) ∧
    (∀ op : SplitOp, s.splitAttempted = true →
      applySplitOp s op = (s, false)) ∧
    (∀ o : SplitOutcome, s.splitAttempted = false →
      (querySplitStep s true o).1.splitAttempted = true) :=
  ⟨fun ops h => runSplitOps_frozen s ops h,
    fun op h => applySplitOp_frozen s op h,
    fun o h => querySplitStep_sets s o h⟩

/-- C8 witness at concrete records and interaction sequences. -/
theorem claim_C8_split_attempted_life_cycle_witness :
    runSplitOps ⟨0, 1, [], true⟩
      [SplitOp.query true SplitOutcome.err,
        SplitOp.autoSplit (SplitOutcome.ok [("a", "p")])] =
      (⟨0, 1, [], true⟩, 0) ∧
    (querySplitStep ⟨0, 1, [], false⟩ true
      SplitOutcome.unavailable).1.splitAttempted = true :=
  ⟨(claim_C8_split_attempted_life_cycle ⟨0, 1, [], true⟩).1 _ rfl,
    (claim_C8_split_attempted_life_cycle ⟨0, 1, [], false⟩).2.2 _ rfl⟩

/-- C9: a cited figure number whose candidate pool is empty receives an
explicit unmatched entry (`none`, no record) while the pass continues
unchanged on the remaining citations with the used set untouched; and
every cited figure number receives an entry in the final map — the
matcher is total and never throws. -/
theorem claim_C9_empty_pool_reported (images : List (ℕ × Image)) (fig : ℕ)
    (pages : List ℤ) (rest : List (ℕ × List ℤ)) (used : List ℕ)
    (raw : List Image) (figPages : List (ℕ × List ℤ)) (n : ℕ)
    (hpool : candidatePool images used (searchWindow (minPages pages)) = [])
    (hn : n ∈ figPages.map Prod.fst) :
    primaryPass images ((fig, pages) :: rest) used =
      ((fig, none) :: (primaryPass images rest used).1,
        (primaryPass images rest used).2) ∧
    (List.lookup n (matchFigures raw figPages)).isSome :=
  ⟨primaryPass_empty_pool images fig pages rest used hpool,
    matchFigures_lookup_isSome raw figPages n hn⟩

/-- C9 witness: a document with no images at all still processes the
citation of figure 5 and records it as unmatched. -/
theorem claim_C9_empty_pool_reported_witness :
    primaryPass [] [(5, [1])] [] =
      ((5, none) :: (primaryPass [] [] []).1, (primaryPass [] [] []).2) ∧
    (List.lookup 5 (matchFigures [] [(5, [1])])).isSome :=
  claim_C9_empty_pool_reported [] 5 [1] [] [] [] [(5, [1])] 5 (by decide)
    (by decide)

/-- C10: the case-insensitive subfigure capture also matches an uppercase
letter of following prose: `"Figure 3 The"` yields exactly the subfigure
citation `(3, T)` and no bare `(3, none)` citation, and
`"Figure 3. The"` also yields a `(3, T)` citation. -/
theorem claim_C10_uppercase_prose_capture :
    extractRefsStr "Figure 3 The" = [⟨3, some 'T', 0, 10⟩] ∧
    (3, some 'T') ∈ (extractRefsStr "Figure 3. The").map refKey ∧
    (3, (none : Option Char)) ∉ (extractRefsStr "Figure 3 The").map
      refKey := by
  refine ⟨by decide, by decide, by decide⟩

end LitAgent